import Mathlib

/-!
Verification of the Vireon threat-intelligence pipeline.

This development shallowly embeds the core of the repository:
the IOC extraction service (`src/services/iocExtractor.ts`), the indicator
store (`src/services/dataStorage.ts`), the campaign correlator
(`src/components/ThreatCampaignDetector.tsx`) and the pipeline orchestrator
(`src/services/threatIntelPipeline.ts`).

Modelling conventions:
* texts are `List Char`; JavaScript regular expressions are embedded as
  hand-written matchers that reproduce the greedy/backtracking semantics of
  each concrete pattern of the source;
* JavaScript numbers are modelled as exact rationals `ℚ` (confidences) and
  integers `ℤ` (millisecond timestamps, `Date.getTime()` values);
* `Math.round` is `⌊x + 1/2⌋`, JavaScript's round-half-up.
-/

set_option maxRecDepth 10000

namespace Vireon

/-! ### Character classes (JS regex classes used by the extractor patterns) -/

/-- JS `[0-9]`. -/
def isDigitC (c : Char) : Bool := '0' ≤ c && c ≤ '9'

/-- JS `[a-z]`. -/
def isLowerC (c : Char) : Bool := 'a' ≤ c && c ≤ 'z'

/-- JS `[A-Z]`. -/
def isUpperC (c : Char) : Bool := 'A' ≤ c && c ≤ 'Z'

/-- JS `[a-zA-Z]`. -/
def isLetterC (c : Char) : Bool := isLowerC c || isUpperC c

/-- JS `[a-zA-Z0-9]`. -/
def isAlnumC (c : Char) : Bool := isLetterC c || isDigitC c

/-- JS `\w`, i.e. `[A-Za-z0-9_]`. -/
def isWordC (c : Char) : Bool := isAlnumC c || c == '_'

/-- JS `[a-fA-F0-9]` (hexadecimal digit). -/
def isHexC (c : Char) : Bool :=
  isDigitC c || ('a' ≤ c && c ≤ 'f') || ('A' ≤ c && c ≤ 'F')

/-- JS `\s` restricted to the usual ASCII whitespace characters. -/
def isWsC (c : Char) : Bool :=
  c == ' ' || c == '\t' || c == '\n' || c == '\r'

/-- ASCII lower-casing, the effect of JS `toLowerCase` on ASCII text. -/
def lowerC (c : Char) : Char :=
  if isUpperC c then Char.ofNat (c.toNat + 32) else c

/-- Lower-case a whole text. -/
def lowerL (cs : List Char) : List Char := cs.map lowerC

/-- `Math.min` on naturals (executable; equal to `min`, see
`natMin_eq_min`).  The executable variants below exist because the
lattice `min`/`max`/`⌊⌋` of the ambient library are not definitionally
computable; each is proved equal to its library counterpart. -/
def natMin (a b : Nat) : Nat := if a ≤ b then a else b

/-- `Math.max` on naturals. -/
def natMax (a b : Nat) : Nat := if a ≤ b then b else a

/-- `Math.min` on rationals (executable; equal to `min` on `ℚ`, see
`ratMin_eq_min`). -/
def ratMin (a b : ℚ) : ℚ := if a ≤ b then a else b

/-- `Math.max` on rationals. -/
def ratMax (a b : ℚ) : ℚ := if a ≤ b then b else a

/-- `Math.min` on integers. -/
def intMin (a b : ℤ) : ℤ := if a ≤ b then a else b

/-- `Math.max` on integers. -/
def intMax (a b : ℤ) : ℤ := if a ≤ b then b else a

/-! ### String helpers -/

/-- Does `pre` occur as a prefix of `cs`? (JS `startsWith`.) -/
def startsWithL : List Char → List Char → Bool
  | [], _ => true
  | _ :: _, [] => false
  | p :: ps, c :: cs => p == c && startsWithL ps cs

/-- Case-insensitive prefix test (used for the `/i`-flagged patterns). -/
def startsWithCI (pre cs : List Char) : Bool :=
  startsWithL (lowerL pre) (lowerL cs)

/-- Does `pat` occur as a contiguous substring of `hay`? (JS `includes`.) -/
def includesL (pat : List Char) : List Char → Bool
  | [] => startsWithL pat []
  | c :: cs => startsWithL pat (c :: cs) || includesL pat cs

/-- Index of the first occurrence of `pat` in `hay` (JS `indexOf`);
`none` when absent. -/
def idxOf? (pat : List Char) : List Char → Option Nat
  | [] => if startsWithL pat [] then some 0 else none
  | c :: cs =>
    if startsWithL pat (c :: cs) then some 0
    else (idxOf? pat cs).map (· + 1)

/-- All indices at which `pat` occurs in `hay` (every substring occurrence). -/
def substrPositions (pat : List Char) : List Char → List Nat
  | [] => if startsWithL pat [] then [0] else []
  | c :: cs =>
    let rest := (substrPositions pat cs).map (· + 1)
    if startsWithL pat (c :: cs) then 0 :: rest else rest

/-- Length of the maximal prefix of `cs` whose characters satisfy `p`. -/
def countWhile (p : Char → Bool) : List Char → Nat
  | [] => 0
  | c :: cs => if p c then countWhile p cs + 1 else 0

/-- JS `String.trim` (strip leading/trailing whitespace). -/
def trimL (cs : List Char) : List Char :=
  ((cs.dropWhile isWsC).reverse.dropWhile isWsC).reverse

/-! ### Word boundaries

JS `\b` holds between two positions iff exactly one side is a word
character; the outside of the string counts as a non-word character. -/

/-- Word-character test lifted to an optional character (`none` = string edge). -/
def isWordOpt : Option Char → Bool
  | none => false
  | some c => isWordC c

/-- JS `\b` between a previous character and a next character. -/
def wb (prev next : Option Char) : Bool := isWordOpt prev != isWordOpt next

/-! ### Generic scanning

`scanFrom m fuel prev cs` reproduces `text.match(re)` with a global regex:
scan left to right, at each position try the matcher (which receives the
previous character for `\b` tests); on success emit the matched characters
and resume right after the match, otherwise advance one character. -/

/-- First `some` produced by `f` over a list of candidates (backtracking
through an ordered list of alternatives). -/
def firstSome (f : Nat → Option Nat) : List Nat → Option Nat
  | [] => none
  | n :: ns =>
    match f n with
    | some r => some r
    | none => firstSome f ns

/-- One scanning pass; `fuel` bounds the recursion (the text length works). -/
def scanFrom (m : Option Char → List Char → Option Nat) :
    Nat → Option Char → List Char → List (List Char)
  | 0, _, _ => []
  | _ + 1, _, [] => []
  | fuel + 1, prev, c :: cs =>
    match m prev (c :: cs) with
    | some n =>
      let n' := natMax n 1
      (c :: cs).take n' ::
        scanFrom m fuel ((c :: cs).get? (n' - 1)) ((c :: cs).drop n')
    | none => scanFrom m fuel (some c) cs

/-- All matches of a matcher in a text (JS `text.match(re)` with `/g`). -/
def scanAll (m : Option Char → List Char → Option Nat) (text : List Char) :
    List (List Char) :=
  scanFrom m text.length none text

/-- Remove every match of a matcher (JS `text.replace(re, '')` with `/g`). -/
def stripFrom (m : Option Char → List Char → Option Nat) :
    Nat → Option Char → List Char → List Char
  | 0, _, cs => cs
  | _ + 1, _, [] => []
  | fuel + 1, prev, c :: cs =>
    match m prev (c :: cs) with
    | some n =>
      let n' := natMax n 1
      stripFrom m fuel ((c :: cs).get? (n' - 1)) ((c :: cs).drop n')
    | none => c :: stripFrom m fuel (some c) cs

/-- `text.replace(pattern, '')` for a matcher. -/
def stripAll (m : Option Char → List Char → Option Nat) (text : List Char) :
    List Char :=
  stripFrom m text.length none text

/-- Lift a character test to an optional character. -/
def optP (p : Char → Bool) : Option Char → Bool
  | none => false
  | some c => p c

/-! ### The IPv4 pattern

`\b(?:(?:25[0-5]|2[0-4][0-9]|[01]?[0-9][0-9]?)\.){3}(?:25[0-5]|2[0-4][0-9]|[01]?[0-9][0-9]?)\b`

`ipOctetLens` lists the lengths at which the octet alternation can match,
in the backtracking preference order of the JS engine: the three-branch
alternation left to right, and inside `[01]?[0-9][0-9]?` the greedy
preference for taking the optional parts. -/

def ipOctetLens (cs : List Char) : List Nat :=
  let c0 := cs.get? 0
  let c1 := cs.get? 1
  let c2 := cs.get? 2
  (if c0 == some '2' && c1 == some '5' && optP (fun d => '0' ≤ d && d ≤ '5') c2
   then [3] else []) ++
  (if c0 == some '2' && optP (fun d => '0' ≤ d && d ≤ '4') c1 && optP isDigitC c2
   then [3] else []) ++
  (if optP (fun d => d == '0' || d == '1') c0 && optP isDigitC c1 && optP isDigitC c2
   then [3] else []) ++
  (if optP (fun d => d == '0' || d == '1') c0 && optP isDigitC c1
   then [2] else []) ++
  (if optP isDigitC c0 && optP isDigitC c1 then [2] else []) ++
  (if optP isDigitC c0 then [1] else [])

/-- The final octet followed by `\b` (the octet ends in a digit, so the
boundary requires a non-word continuation). -/
def ipv4Last (cs : List Char) : Option Nat :=
  firstSome (fun n => if isWordOpt (cs.get? n) then none else some n)
    (ipOctetLens cs)

/-- `k + 1` octets separated by dots, ending with the `\b`-checked octet. -/
def ipv4Seq : Nat → List Char → Option Nat
  | 0, cs => ipv4Last cs
  | k + 1, cs =>
    firstSome (fun n =>
      if cs.get? n == some '.' then
        (ipv4Seq k (cs.drop (n + 1))).map (fun m => n + 1 + m)
      else none) (ipOctetLens cs)

/-- Matcher for the `ipv4` pattern at one position. -/
def ipv4At (prev : Option Char) (cs : List Char) : Option Nat :=
  match cs with
  | [] => none
  | c :: _ => if wb prev (some c) then ipv4Seq 3 cs else none

/-! ### The IPv6 pattern

`\b(?:[a-fA-F0-9]{1,4}:){7}[a-fA-F0-9]{1,4}\b|\b(?:[a-fA-F0-9]{1,4}:){1,7}:|\b(?:[a-fA-F0-9]{1,4}:){1,6}:[a-fA-F0-9]{1,4}\b`

A `[a-fA-F0-9]{1,4}:` group is deterministic: with a greedy hex run of
length `r`, only consuming the whole run can be followed by `:` (any
shorter prefix is followed by a hex character), so the group matches iff
`1 ≤ r ≤ 4` and the run is followed by `:`.  Likewise backtracking to
fewer groups never helps, since the position after fewer groups starts
with a hex character, not `:`. -/

def hexGroupAt (cs : List Char) : Option Nat :=
  let r := countWhile isHexC cs
  if 1 ≤ r && r ≤ 4 && cs.get? r == some ':' then some (r + 1) else none

/-- Greedily consume up to `maxG` `[a-fA-F0-9]{1,4}:` groups; returns the
consumed length and the number of groups. -/
def hexGroups : Nat → List Char → Nat × Nat
  | 0, _ => (0, 0)
  | maxG + 1, cs =>
    match hexGroupAt cs with
    | none => (0, 0)
    | some n =>
      let p := hexGroups maxG (cs.drop n)
      (n + p.1, p.2 + 1)

/-- The trailing `[a-fA-F0-9]{1,4}\b`. -/
def ipv6Tail (cs : List Char) : Option Nat :=
  let r := countWhile isHexC cs
  if 1 ≤ r && r ≤ 4 && !isWordOpt (cs.get? r) then some r else none

/-- First alternative: exactly 7 groups then a trailing hex piece. -/
def ipv6Alt1 (cs : List Char) : Option Nat :=
  let p := hexGroups 7 cs
  if p.2 == 7 then (ipv6Tail (cs.drop p.1)).map (fun t => p.1 + t) else none

/-- Second alternative: 1-7 groups then a bare `:`. -/
def ipv6Alt2 (cs : List Char) : Option Nat :=
  let p := hexGroups 7 cs
  if 1 ≤ p.2 && cs.get? p.1 == some ':' then some (p.1 + 1) else none

/-- Third alternative: 1-6 groups, `:`, then a trailing hex piece. -/
def ipv6Alt3 (cs : List Char) : Option Nat :=
  let p := hexGroups 6 cs
  if 1 ≤ p.2 && cs.get? p.1 == some ':' then
    (ipv6Tail (cs.drop (p.1 + 1))).map (fun t => p.1 + 1 + t)
  else none

/-- Matcher for the `ipv6` pattern (alternatives tried left to right; every
alternative begins with a word character, covered by one `\b` test). -/
def ipv6At (prev : Option Char) (cs : List Char) : Option Nat :=
  match cs with
  | [] => none
  | c :: _ =>
    if wb prev (some c) then
      match ipv6Alt1 cs with
      | some n => some n
      | none =>
        match ipv6Alt2 cs with
        | some n => some n
        | none => ipv6Alt3 cs
    else none

/-! ### The URL pattern

`https?:\/\/(?:[-\w.%]+)+(?:\:[0-9]+)?(?:\/(?:[\w\/_\-.%])*(?:\?(?:[\w&=%\-.])*)?(?:\#(?:[\w\-.])*)?)?`

No `\b` anchors.  Each component's follower character is outside the
component's class, so greedy matching is deterministic. -/

def isHostC (c : Char) : Bool := isWordC c || c == '-' || c == '.' || c == '%'

def isPathC (c : Char) : Bool :=
  isWordC c || c == '/' || c == '_' || c == '-' || c == '.' || c == '%'

def isQueryC (c : Char) : Bool :=
  isWordC c || c == '&' || c == '=' || c == '%' || c == '-' || c == '.'

def isFragC (c : Char) : Bool := isWordC c || c == '-' || c == '.'

/-- Matcher for the `url` pattern at one position. -/
def urlAt (_prev : Option Char) (cs : List Char) : Option Nat :=
  let scheme : Option Nat :=
    if startsWithL "https://".toList cs then some 8
    else if startsWithL "http://".toList cs then some 7
    else none
  scheme.bind fun s =>
    let afterScheme := cs.drop s
    let h := countWhile isHostC afterScheme
    if h == 0 then none
    else
      let afterHost := afterScheme.drop h
      let port :=
        if afterHost.get? 0 == some ':' then
          let d := countWhile isDigitC (afterHost.drop 1)
          if d == 0 then 0 else d + 1
        else 0
      let afterPort := afterHost.drop port
      let path :=
        if afterPort.get? 0 == some '/' then
          let p := 1 + countWhile isPathC (afterPort.drop 1)
          let afterP := afterPort.drop p
          let q :=
            if afterP.get? 0 == some '?' then
              1 + countWhile isQueryC (afterP.drop 1)
            else 0
          let afterQ := afterP.drop q
          let f :=
            if afterQ.get? 0 == some '#' then
              1 + countWhile isFragC (afterQ.drop 1)
            else 0
          p + q + f
        else 0
      some (s + h + port + path)

/-! ### The domain pattern

`\b(?:[a-zA-Z0-9](?:[a-zA-Z0-9\-]{0,61}[a-zA-Z0-9])?\.)+[a-zA-Z]{2,}\b` -/

def isLabelMidC (c : Char) : Bool := isAlnumC c || c == '-'

/-- Lengths at which one label can match, in JS greedy preference order:
the optional inner part present with 61 down to 0 middle characters, then
the bare single character. -/
def labelLens (cs : List Char) : List Nat :=
  match cs with
  | [] => []
  | c :: rest =>
    if isAlnumC c then
      ((List.range 62).reverse.filterMap (fun i =>
        if (rest.take i).length == i && (rest.take i).all isLabelMidC &&
            optP isAlnumC (rest.get? i)
        then some (i + 2) else none)) ++ [1]
    else []

/-- After at least one `label.` group: greedily try further groups, then
fall back to the trailing `[a-zA-Z]{2,}\b` (a shorter letter run is always
followed by a letter, so the boundary check on the full run decides). -/
def domTail : Nat → List Char → Option Nat
  | 0, _ => none
  | fuel + 1, cs =>
    match firstSome (fun n =>
        if cs.get? n == some '.' then
          (domTail fuel (cs.drop (n + 1))).map (fun m => n + 1 + m)
        else none) (labelLens cs) with
    | some r => some r
    | none =>
      let r := countWhile isLetterC cs
      if 2 ≤ r && !isWordOpt (cs.get? r) then some r else none

/-- Matcher for the `domain` pattern at one position. -/
def domainAt (prev : Option Char) (cs : List Char) : Option Nat :=
  match cs with
  | [] => none
  | c :: _ =>
    if wb prev (some c) then
      firstSome (fun n =>
        if cs.get? n == some '.' then
          (domTail cs.length (cs.drop (n + 1))).map (fun m => n + 1 + m)
        else none) (labelLens cs)
    else none

/-! ### The hash patterns

`\b[a-fA-F0-9]{32}\b` (md5) and its 40/64/128-character variants.  The
repetition count is exact, so matching is deterministic. -/

/-- Matcher for a fixed-length hex-string pattern at one position. -/
def fixedHexAt (k : Nat) (prev : Option Char) (cs : List Char) : Option Nat :=
  match cs with
  | [] => none
  | c :: _ =>
    if wb prev (some c) && (cs.take k).length == k && (cs.take k).all isHexC &&
        !isWordOpt (cs.get? k)
    then some k else none

/-! ### The email pattern

`\b[A-Za-z0-9._%+-]+@[A-Za-z0-9.-]+\.[A-Z|a-z]{2,}\b`

(the final class literally contains `|`). -/

def isLocalC (c : Char) : Bool :=
  isAlnumC c || c == '.' || c == '_' || c == '%' || c == '+' || c == '-'

def isEmailDomC (c : Char) : Bool := isAlnumC c || c == '.' || c == '-'

def isTldC (c : Char) : Bool := isLetterC c || c == '|'

/-- Matcher for the `email` pattern at one position. -/
def emailAt (prev : Option Char) (cs : List Char) : Option Nat :=
  match cs with
  | [] => none
  | c :: _ =>
    if !wb prev (some c) then none
    else
      let l := countWhile isLocalC cs
      if l == 0 then none
      else if cs.get? l != some '@' then none
      else
        let rest := cs.drop (l + 1)
        let d := countWhile isEmailDomC rest
        firstSome (fun k =>
          if 1 ≤ k && rest.get? k == some '.' then
            let after := rest.drop (k + 1)
            let r := countWhile isTldC after
            firstSome (fun m =>
              if 2 ≤ m && wb (after.get? (m - 1)) (after.get? m) then
                some (l + 1 + k + 1 + m)
              else none) ((List.range (r + 1)).reverse)
          else none) ((List.range (d + 1)).reverse)

/-! ### The CVE pattern

`(?:CVE|cve|vulnerability)[-:\s]*(\d{4})[-:\s]*(\d{4,7})` with the `i`
flag, so the prefix alternation is effectively case-insensitive `cve` or
`vulnerability`.  Separator and digit classes are disjoint, so the greedy
components are deterministic. -/

def isSepC (c : Char) : Bool := c == '-' || c == ':' || isWsC c

/-- Matcher for the `cve` pattern at one position (no `\b` anchors). -/
def cveAt (_prev : Option Char) (cs : List Char) : Option Nat :=
  let pfx : Option Nat :=
    if startsWithCI "cve".toList cs then some 3
    else if startsWithCI "vulnerability".toList cs then some 13
    else none
  pfx.bind fun p =>
    let s1 := countWhile isSepC (cs.drop p)
    let d1 := countWhile isDigitC (cs.drop (p + s1))
    if d1 < 4 then none
    else
      let s2 := countWhile isSepC (cs.drop (p + s1 + 4))
      let d2 := countWhile isDigitC (cs.drop (p + s1 + 4 + s2))
      if d2 < 4 then none
      else some (p + s1 + 4 + s2 + natMin d2 7)

/-! ### The GHSA pattern

`\bGHSA-[a-zA-Z0-9]{4}-[a-zA-Z0-9]{4}-[a-zA-Z0-9]{4}\b` with the `i` flag. -/

/-- Matcher for the `ghsa` pattern at one position. -/
def ghsaAt (prev : Option Char) (cs : List Char) : Option Nat :=
  match cs with
  | [] => none
  | c :: _ =>
    if !wb prev (some c) then none
    else if !startsWithCI "ghsa-".toList cs then none
    else
      let rest := cs.drop 5
      if (rest.take 4).length == 4 && (rest.take 4).all isAlnumC &&
          rest.get? 4 == some '-' &&
          ((rest.drop 5).take 4).length == 4 &&
          ((rest.drop 5).take 4).all isAlnumC &&
          (rest.drop 5).get? 4 == some '-' &&
          ((rest.drop 10).take 4).length == 4 &&
          ((rest.drop 10).take 4).all isAlnumC &&
          !isWordOpt ((rest.drop 10).get? 4)
      then some 19 else none

/-! ### The MITRE pattern

`\bT\d{4}(?:\.\d{3})?\b` (case-sensitive).  The optional suffix is greedy:
it is taken when it matches and the boundary after it holds, otherwise the
engine falls back to the bare `T\d{4}\b`. -/

/-- Matcher for the `mitre` pattern at one position. -/
def mitreAt (prev : Option Char) (cs : List Char) : Option Nat :=
  match cs with
  | [] => none
  | c :: _ =>
    if !wb prev (some c) then none
    else if c != 'T' then none
    else
      let rest := cs.drop 1
      if !((rest.take 4).length == 4 && (rest.take 4).all isDigitC) then none
      else if rest.get? 4 == some '.' &&
          ((rest.drop 5).take 3).length == 3 &&
          ((rest.drop 5).take 3).all isDigitC &&
          !isWordOpt ((rest.drop 5).get? 3)
      then some 9
      else if !isWordOpt (rest.get? 4) then some 5
      else none

/-! ### The IOC data model (`iocExtractor.ts`) -/

/-- `ExtractedIOC.type`: `'ip' | 'url' | 'hash' | 'domain' | 'email'`. -/
inductive IOCType
  | ip
  | url
  | hash
  | domain
  | email
deriving DecidableEq, Repr

/-- `ExtractedIOC`. -/
structure ExtractedIOC where
  type : IOCType
  value : List Char
  context : List Char
  confidence : ℚ
deriving DecidableEq, Repr

/-- `IOCExtractionResult.summary`; `byType` is the record built by the
per-IOC increment loop (absent types read as 0, matching `|| 0`). -/
structure IOCSummary where
  totalFound : Nat
  byType : IOCType → Nat

/-- `IOCExtractionResult`. -/
structure IOCExtractionResult where
  iocs : List ExtractedIOC
  summary : IOCSummary

/-- Insert before the first strictly-smaller element (after equals), the
stable-insertion step. -/
def insertBefore (lt : α → α → Bool) (x : α) : List α → List α
  | [] => [x]
  | y :: ys => if lt x y then x :: y :: ys else y :: insertBefore lt x ys

/-- Stable sort (JS `Array.sort` is stable) by a strict "goes before" test. -/
def stableSortBy (lt : α → α → Bool) (l : List α) : List α :=
  l.foldl (fun acc x => insertBefore lt x acc) []

namespace IOCExtractor

/-- The 17 threat keywords of `calculateConfidence`. -/
def threatKeywords : List (List Char) :=
  ["malicious".toList, "threat".toList, "malware".toList, "suspicious".toList,
   "attack".toList, "compromise".toList, "phishing".toList,
   "ransomware".toList, "trojan".toList, "backdoor".toList, "c2".toList,
   "command".toList, "control".toList, "botnet".toList, "exploit".toList,
   "vulnerability".toList, "breach".toList]

/-- Number of threat keywords found in the lower-cased context. -/
def keywordHits (context : List Char) : Nat :=
  (threatKeywords.filter (fun kw => includesL kw (lowerL context))).length

/-- `^172\.(1[6-9]|2\d|3[01])\.` applied to a value. -/
def starts172Private (v : List Char) : Bool :=
  startsWithL "172.".toList v &&
  (let r := v.drop 4
   (r.get? 0 == some '1' && optP (fun d => '6' ≤ d && d ≤ '9') (r.get? 1) &&
      r.get? 2 == some '.') ||
   (r.get? 0 == some '2' && optP isDigitC (r.get? 1) && r.get? 2 == some '.') ||
   (r.get? 0 == some '3' && optP (fun d => d == '0' || d == '1') (r.get? 1) &&
      r.get? 2 == some '.'))

/-- `excludePatterns.ip`: the eight private/reserved-range tests. -/
def isPrivateIP (v : List Char) : Bool :=
  v == "0.0.0.0".toList ||
  startsWithL "127.".toList v ||
  startsWithL "10.".toList v ||
  starts172Private v ||
  startsWithL "192.168.".toList v ||
  startsWithL "169.254.".toList v ||
  startsWithL "224.".toList v ||
  v == "255.255.255.255".toList

/-- `isSuspiciousURL`: suspicious TLD or keyword in the lower-cased URL. -/
def isSuspiciousURL (v : List Char) : Bool :=
  let u := lowerL v
  [".tk".toList, ".ml".toList, ".ga".toList, ".cf".toList,
   ".onion".toList].any (fun t => includesL t u) ||
  ["download".toList, "payload".toList, "malware".toList,
   "exploit".toList].any (fun k => includesL k u)

/-- `IOCExtractor.calculateConfidence`. -/
def calculateConfidence (value : List Char) (t : IOCType) (context : List Char) :
    ℚ :=
  let conf : ℚ := 7/10 + (keywordHits context : ℚ) * (1/10)
  let conf :=
    match t with
    | .ip => if isPrivateIP value then conf - 3/10 else conf
    | .url => if isSuspiciousURL value then conf + 2/10 else conf
    | .hash => conf + 2/10
    | _ => conf
  ratMin 1 (ratMax (1/10) conf)

/-- `IOCExtractor.extractPattern`: scan the given text, and for each match
compute the ±50-character context window around the first occurrence of the
matched string (`text.indexOf(match)`), the trimmed value, and the
confidence. -/
def extractPattern (text : List Char)
    (m : Option Char → List Char → Option Nat) (t : IOCType) :
    List ExtractedIOC :=
  (scanAll m text).map (fun mt =>
    let i := (idxOf? mt text).getD 0
    let contextStart := i - 50
    let contextEnd := natMin text.length (i + mt.length + 50)
    let context := trimL ((text.drop contextStart).take (contextEnd - contextStart))
    { type := t, value := trimL mt, context := context,
      confidence := calculateConfidence mt t context })

/-- `^\d+\.\d+\.\d+\.\d+$` with `k + 1` digit groups. -/
def digitsDot : Nat → List Char → Bool
  | 0, v =>
    let d := countWhile isDigitC v
    1 ≤ d && d == v.length
  | k + 1, v =>
    let d := countWhile isDigitC v
    1 ≤ d && v.get? d == some '.' && digitsDot k (v.drop (d + 1))

/-- `excludePatterns.domain`: the five excluded-domain tests. -/
def isExcludedDomain (v : List Char) : Bool :=
  let lv := lowerL v
  lv == "localhost".toList ||
  lv == "example.com".toList || lv == "example.org".toList ||
  lv == "example.net".toList ||
  digitsDot 3 v ||
  lv == "google.com".toList || lv == "www.google.com".toList ||
  lv == "microsoft.com".toList || lv == "www.microsoft.com".toList

/-- `IOCExtractor.shouldIncludeIOC`. -/
def shouldIncludeIOC (ioc : ExtractedIOC) : Bool :=
  match ioc.type with
  | .ip => !isPrivateIP ioc.value
  | .domain =>
    !isExcludedDomain ioc.value && !includesL ".local".toList ioc.value &&
      includesL ".".toList ioc.value
  | .url => startsWithL "http".toList ioc.value && 10 < ioc.value.length
  | .hash => 32 ≤ ioc.value.length
  | .email => includesL "@".toList ioc.value && includesL ".".toList ioc.value

/-- The `type:value-lower-cased` dedup key. -/
def keyOf (i : ExtractedIOC) : IOCType × List Char := (i.type, lowerL i.value)

/-- The dedup/filter loop of `filterAndDedupeIOCs`: an IOC is kept iff its
key has not been kept before and it passes `shouldIncludeIOC`; only kept
IOCs add their key to the `seen` set. -/
def dedupeFold : List (IOCType × List Char) → List ExtractedIOC →
    List ExtractedIOC
  | _, [] => []
  | seen, i :: rest =>
    if seen.contains (keyOf i) then dedupeFold seen rest
    else if shouldIncludeIOC i then i :: dedupeFold (keyOf i :: seen) rest
    else dedupeFold seen rest

/-- `IOCExtractor.filterAndDedupeIOCs`: dedupe/filter, then stable sort by
confidence, highest first (comparator `(a, b) => b.confidence - a.confidence`). -/
def filterAndDedupeIOCs (iocs : List ExtractedIOC) : List ExtractedIOC :=
  stableSortBy (fun a b => b.confidence < a.confidence) (dedupeFold [] iocs)

/-- The summary `byType` record: the increment loop over the final list. -/
def byTypeFold (l : List ExtractedIOC) : IOCType → Nat :=
  l.foldl (fun m i => fun t => if t == i.type then m t + 1 else m t)
    (fun _ => 0)

/-- The raw candidate list built by the twelve `extractPattern` calls of
`extractIOCs`, in source order (domains run on the URL-stripped copy of
the text), before filtering and deduplication. -/
def rawIOCs (text : List Char) : List ExtractedIOC :=
  extractPattern text ipv4At .ip ++
  extractPattern text ipv6At .ip ++
  extractPattern text urlAt .url ++
  extractPattern (stripAll urlAt text) domainAt .domain ++
  extractPattern text (fixedHexAt 32) .hash ++
  extractPattern text (fixedHexAt 40) .hash ++
  extractPattern text (fixedHexAt 64) .hash ++
  extractPattern text (fixedHexAt 128) .hash ++
  extractPattern text emailAt .email ++
  extractPattern text cveAt .hash ++
  extractPattern text ghsaAt .hash ++
  extractPattern text mitreAt .hash

/-- `IOCExtractor.extractIOCs`: run every pattern in source order,
filter/dedupe, and build the summary. -/
def extractIOCs (text : List Char) : IOCExtractionResult :=
  let filtered := filterAndDedupeIOCs (rawIOCs text)
  { iocs := filtered,
    summary := { totalFound := filtered.length, byType := byTypeFold filtered } }

/-- The deduplication law stated extensionally, as the amended claim reads:
per `(type, lower-cased value)` key, keep the first instance that passes
the inclusion filter; once a key is kept, all later instances of that key
are dropped (regardless of confidence); an instance failing the filter is
dropped without blocking its key. -/
def dedupeSpec : List ExtractedIOC → List ExtractedIOC
  | [] => []
  | i :: rest =>
    if shouldIncludeIOC i then
      i :: dedupeSpec (rest.filter (fun j => !(keyOf j == keyOf i)))
    else dedupeSpec rest
termination_by l => l.length
decreasing_by
  · exact Nat.lt_succ_of_le (List.length_filter_le _ _)
  · simp

end IOCExtractor

/-! ### The report data model (`dataStorage.ts`), restricted to the fields
the campaign correlator reads. -/

/-- `ThreatReport.severity`. -/
inductive Severity
  | low
  | medium
  | high
  | critical
deriving DecidableEq, Repr

/-- The `severityLevels` map of `detectCampaigns`. -/
def severityLevel : Severity → Nat
  | .low => 1
  | .medium => 2
  | .high => 3
  | .critical => 4

/-- `ThreatReport.iocs`, in the key insertion order of `organizeIOCs`. -/
structure ReportIOCs where
  ips : List (List Char)
  urls : List (List Char)
  hashes : List (List Char)
  domains : List (List Char)
  emails : List (List Char)
deriving DecidableEq, Repr

/-- `ThreatReport`, restricted to the fields read by the correlator;
`timestamp` is the millisecond value `new Date(r.timestamp).getTime()`. -/
structure ThreatReport where
  title : List Char
  description : List Char
  tags : List (List Char)
  timestamp : ℤ
  severity : Severity
  iocs : ReportIOCs
deriving DecidableEq, Repr

/-! ### The campaign correlator (`ThreatCampaignDetector.tsx`)

The enrichment-derived display fields (name, description, threat actors,
techniques, target sectors, motivation) depend on an optional external
text-generation service and are omitted from the embedded `Campaign`;
every claim concerns the clustering, severity, confidence and time-range
fields computed deterministically from the member reports. -/

namespace ThreatCampaignDetector

/-- The stop-word list of the component. -/
def stopWords : List (List Char) :=
  ["the".toList, "and".toList, "a".toList, "an".toList, "in".toList,
   "on".toList, "at".toList, "to".toList, "for".toList, "with".toList,
   "by".toList, "about".toList, "as".toList, "into".toList, "like".toList,
   "through".toList, "after".toList, "over".toList, "between".toList,
   "out".toList, "against".toList, "during".toList, "without".toList,
   "before".toList, "under".toList, "around".toList, "among".toList]

/-- JS `split(/\s+/)` restricted to its non-empty tokens (the empty edge
tokens the JS call can produce have length 0 and are discarded by the
`length > 4` / `length > 5` filters of every caller). -/
def splitWs : List Char → List (List Char)
  | [] => []
  | c :: cs =>
    if isWsC c then splitWs cs
    else (c :: cs.takeWhile (fun d => !isWsC d)) ::
      splitWs (cs.dropWhile (fun d => !isWsC d))
termination_by l => l.length
decreasing_by
  · simp
  · exact Nat.lt_succ_of_le (List.Sublist.length_le (List.dropWhile_sublist _))

/-- JS `Set.add` (insertion order preserved, value equality). -/
def addToSet [DecidableEq α] (acc : List α) (x : α) : List α :=
  if x ∈ acc then acc else acc ++ [x]

/-- A JS `Set` built by inserting a list of elements in order. -/
def dedupKeepFirst (l : List (List Char)) : List (List Char) :=
  l.foldl addToSet []

/-- `extractKeywords`: lower-cased tags, then title words of length > 4,
then description words of length > 5, stop words removed, as a Set. -/
def extractKeywords (r : ThreatReport) : List (List Char) :=
  dedupKeepFirst
    (r.tags.map lowerL ++
     (splitWs (lowerL r.title)).filter
       (fun w => 4 < w.length && !stopWords.contains w) ++
     (splitWs (lowerL r.description)).filter
       (fun w => 5 < w.length && !stopWords.contains w))

/-- The accumulated keyword Set of a cluster (members in insertion order). -/
def clusterKeywords (cl : List ThreatReport) : List (List Char) :=
  dedupKeepFirst (cl.map extractKeywords).flatten

/-- `sharedKeywords.length / Math.max(1, Math.min(keywords.length,
campaignKeywords.size))`. -/
def similarity (kws clKws : List (List Char)) : ℚ :=
  let shared := (kws.filter (fun kw => clKws.contains kw)).length
  (shared : ℚ) / ((natMax 1 (natMin kws.length clKws.length)) : ℚ)

/-- Assign a report to the first existing cluster with similarity above
0.3 (the `!assigned` flag makes later qualifying clusters irrelevant). -/
def assignReport (r : ThreatReport) (kws : List (List Char)) :
    List (List ThreatReport) → Option (List (List ThreatReport))
  | [] => none
  | cl :: rest =>
    if (3 : ℚ)/10 < similarity kws (clusterKeywords cl) then
      some ((cl ++ [r]) :: rest)
    else (assignReport r kws rest).map (cl :: ·)

/-- The single-pass greedy clustering loop over `reports` (new clusters are
appended, matching the `campaign-N` key insertion order). -/
def buildClusters (reports : List ThreatReport) : List (List ThreatReport) :=
  reports.foldl (fun clusters r =>
    match assignReport r (extractKeywords r) clusters with
    | some cs => cs
    | none => clusters ++ [[r]]) []

/-- `Math.round`: round half upward, the floor of `x + 1/2` (`Rat.floor`
is the executable floor; it agrees with `⌊⌋` by `Rat.floor_def
`/`Rat.floor_def'`). -/
def jsRound (x : ℚ) : ℤ := (x + 1/2).floor

/-- The five IOC collections of a report, in `Object.entries` order. -/
def iocFields : List (ReportIOCs → List (List Char)) :=
  [(·.ips), (·.urls), (·.hashes), (·.domains), (·.emails)]

/-- The accumulated `iocSets[type]` Set across all member reports. -/
def iocUnion (f : ReportIOCs → List (List Char)) (reports : List ThreatReport) :
    List (List Char) :=
  reports.foldl (fun acc r => (f r.iocs).foldl addToSet acc) []

/-- `sharedIocCount`: the sum over types of the accumulated Set's size,
counted only when that size exceeds 1. -/
def sharedIocCount (reports : List ThreatReport) : Nat :=
  (iocFields.map (fun f =>
    let s := (iocUnion f reports).length
    if 1 < s then s else 0)).sum

/-- `ThreatCampaignDetector.calculateConfidence` (`now` is `Date.now()`). -/
def calculateConfidence (now : ℤ) (reports : List ThreatReport) : ℤ :=
  if reports.length < 2 then 0
  else
    let reportCount : ℚ := ratMin ((reports.length : ℚ) / 2) 5
    let avgAge : ℚ :=
      (reports.foldl (fun s r => s + ((now - r.timestamp : ℤ) : ℚ)) 0) /
        (reports.length : ℚ)
    let recency : ℚ := ratMax 0 (1 - avgAge / (30 * 24 * 60 * 60 * 1000))
    let iocFactor : ℚ := ratMin ((sharedIocCount reports : ℚ) / 5) 3
    intMin 100 (jsRound ((reportCount + recency + iocFactor) * 11))

/-- The highest-severity loop of `detectCampaigns` (starts at `low`,
replaces on strictly greater level). -/
def highestSeverity (reports : List ThreatReport) : Severity :=
  reports.foldl (fun acc r =>
    if severityLevel acc < severityLevel r.severity then r.severity else acc)
    .low

/-- `Math.min(...timestamps)` over a cluster (clusters are non-empty). -/
def minTimestamp : List ThreatReport → ℤ
  | [] => 0
  | r :: rs => rs.foldl (fun m x => intMin m x.timestamp) r.timestamp

/-- `Math.max(...timestamps)` over a cluster. -/
def maxTimestamp : List ThreatReport → ℤ
  | [] => 0
  | r :: rs => rs.foldl (fun m x => intMax m x.timestamp) r.timestamp

/-- The embedded `Campaign` (deterministic fields only, see above). -/
structure Campaign where
  reports : List ThreatReport
  severity : Severity
  confidence : ℤ
  firstSeen : ℤ
  lastSeen : ℤ
deriving DecidableEq, Repr

/-- `severityToNum`. -/
def severityToNum : Severity → Nat
  | .critical => 4
  | .high => 3
  | .medium => 2
  | .low => 1

/-- Build the campaign object for one surviving cluster. -/
def mkCampaign (now : ℤ) (rs : List ThreatReport) : Campaign :=
  { reports := rs, severity := highestSeverity rs,
    confidence := calculateConfidence now rs,
    firstSeen := minTimestamp rs, lastSeen := maxTimestamp rs }

/-- The final sort comparator: severity descending, then confidence
descending (`a` goes strictly before `b`). -/
def campaignBefore (a b : Campaign) : Bool :=
  severityToNum b.severity < severityToNum a.severity ||
  (severityToNum b.severity == severityToNum a.severity &&
    b.confidence < a.confidence)

/-- `detectCampaigns`: cluster, drop singleton clusters, build campaign
objects, sort. -/
def detectCampaigns (now : ℤ) (reports : List ThreatReport) : List Campaign :=
  let valid := (buildClusters reports).filter (fun cl => 1 < cl.length)
  stableSortBy campaignBefore (valid.map (mkCampaign now))

/-! #### Claim-side confidence formulas

`claimConfidence` transcribes the claimed formula word for word, with the
claimed `sharedIndicatorCount` ("per indicator type, the count of
indicator values that appear in more than one member report");
`amendedConfidence` is the same formula with `sharedIndicatorCount`
replaced by what the code computes: per type, the number of distinct
values across all member reports, counted only for types with at least 2
distinct values. -/

/-- All values of one indicator type across the member reports. -/
def allVals (f : ReportIOCs → List (List Char)) (reports : List ThreatReport) :
    List (List Char) :=
  (reports.map (fun r => f r.iocs)).flatten

/-- The claimed `sharedIndicatorCount`: per type, the number of distinct
values appearing in more than one member report. -/
def claimSharedCount (reports : List ThreatReport) : Nat :=
  (iocFields.map (fun f =>
    ((allVals f reports).dedup.filter (fun v =>
      1 < reports.countP (fun r => (f r.iocs).contains v))).length)).sum

/-- The average age in milliseconds, written as the claim reads it. -/
def avgAgeMs (now : ℤ) (reports : List ThreatReport) : ℚ :=
  ((reports.map (fun r => ((now - r.timestamp : ℤ) : ℚ))).sum) /
    (reports.length : ℚ)

/-- The claimed confidence formula
`min(100, round((reportCountFactor + recencyFactor + iocFactor) * 11))`. -/
def claimConfidence (now : ℤ) (reports : List ThreatReport) : ℤ :=
  intMin 100 (jsRound
    ((ratMin ((reports.length : ℚ) / 2) 5 +
      ratMax 0 (1 - avgAgeMs now reports / (30 * 24 * 60 * 60 * 1000)) +
      ratMin ((claimSharedCount reports : ℚ) / 5) 3) * 11))

/-- The amended `sharedIndicatorCount`: per type, the number of distinct
values across all member reports when that number is at least 2. -/
def amendedSharedCount (reports : List ThreatReport) : Nat :=
  (iocFields.map (fun f =>
    let d := (allVals f reports).dedup.length
    if 1 < d then d else 0)).sum

/-- The amended confidence formula. -/
def amendedConfidence (now : ℤ) (reports : List ThreatReport) : ℤ :=
  intMin 100 (jsRound
    ((ratMin ((reports.length : ℚ) / 2) 5 +
      ratMax 0 (1 - avgAgeMs now reports / (30 * 24 * 60 * 60 * 1000)) +
      ratMin ((amendedSharedCount reports : ℚ) / 5) 3) * 11))

end ThreatCampaignDetector

/-! ### The indicator store (`dataStorage.ts`) -/

namespace DataStorage

/-- A stored IOC: an `ExtractedIOC` spread together with the source-report
id and the insertion timestamp added by `addIOCs`. -/
structure StoredIOC where
  type : IOCType
  value : List Char
  context : List Char
  confidence : ℚ
  sourceReport : List Char
  timestamp : ℤ
deriving DecidableEq, Repr

/-- `{...ioc, sourceReport, timestamp: new Date().toISOString()}`. -/
def stampIOC (sourceReport : List Char) (now : ℤ) (i : ExtractedIOC) :
    StoredIOC :=
  { type := i.type, value := i.value, context := i.context,
    confidence := i.confidence, sourceReport := sourceReport,
    timestamp := now }

/-- The `findIndex`/replace/push step of `addIOCs` for one incoming IOC:
the first stored entry with the same exact `(type, value)` is replaced
only when the incoming confidence is strictly higher; otherwise the
incoming IOC is appended at the end. -/
def upsertIOC (n : StoredIOC) : List StoredIOC → List StoredIOC
  | [] => [n]
  | i :: rest =>
    if i.type == n.type && i.value == n.value then
      if i.confidence < n.confidence then n :: rest else i :: rest
    else i :: upsertIOC n rest

/-- `DataStorageService.addIOCs`: stamp the incoming IOCs, merge them into
the existing store, and cap the store at 10000 entries, keeping the
highest-confidence ones. -/
def addIOCs (existing : List StoredIOC) (newIOCs : List ExtractedIOC)
    (sourceReport : List Char) (now : ℤ) : List StoredIOC :=
  let unique := (newIOCs.map (stampIOC sourceReport now)).foldl
    (fun acc n => upsertIOC n acc) existing
  if 10000 < unique.length then
    (stableSortBy (fun a b => b.confidence < a.confidence) unique).take 10000
  else unique

end DataStorage

/-! ### The pipeline orchestrator (`threatIntelPipeline.ts`)

`refreshThreatIntelligence` is embedded at the level of its control flow.
The external effects are oracles in `RunEnv`: whether the reentrancy flag
is set, whether the feed fetch (the `await` inside the top-level `try`)
throws, and, per fetched item, whether its IOC extraction and its AI
enrichment throw (the two individually-`try`-wrapped steps).  The result
is `Except`: `.error` models the function throwing to its caller. -/

namespace Pipeline

/-- One fetched feed item together with the failure oracles for its two
per-report processing steps. -/
structure FeedJob where
  title : List Char
  extractThrows : Bool
  enrichThrows : Bool
deriving DecidableEq, Repr

/-- The pipeline state and external-world oracles of one invocation. -/
structure RunEnv where
  alreadyProcessing : Bool
  fetchThrows : Bool
  fetchErrorMsg : List Char
  aiReady : Bool
  items : List FeedJob
deriving DecidableEq, Repr

/-- The `{success, processed, errors}` result object. -/
structure RunResult where
  success : Bool
  processed : Nat
  errors : List (List Char)
deriving DecidableEq, Repr

/-- `options?.maxItems || 50` (0 is falsy in JS). -/
def effectiveMaxItems (maxItems : Nat) : Nat :=
  if maxItems == 0 then 50 else maxItems

/-- The step-3 loop: per report, a successful IOC extraction increments
`processedCount`; a throwing one is caught and appends an error. -/
def extractionStep (jobs : List FeedJob) : Nat × List (List Char) :=
  jobs.foldl (fun acc j =>
    if j.extractThrows then
      (acc.1, acc.2 ++ ["IOC extraction failed for ".toList ++ j.title])
    else (acc.1 + 1, acc.2)) (0, [])

/-- The step-4 loop: run only when the AI analyzer is ready; a throwing
enrichment is caught and appends an error (it does not touch the count). -/
def enrichmentStep (aiReady : Bool) (jobs : List FeedJob) :
    List (List Char) :=
  if aiReady then
    jobs.foldl (fun errs j =>
      if j.enrichThrows then
        errs ++ ["AI summary failed for ".toList ++ j.title]
      else errs) []
  else []

/-- `refreshThreatIntelligence`.  A set reentrancy flag throws before the
`try`; a throw inside the `try` (the feed fetch) is caught and turned into
a `success: false` result; otherwise the per-item loops run and the
function returns `success: true` with the accumulated count and errors. -/
def refreshThreatIntelligence (env : RunEnv) (maxItems : Nat) :
    Except (List Char) RunResult :=
  if env.alreadyProcessing then
    .error "Pipeline is already processing. Please wait for current operation to complete.".toList
  else if env.fetchThrows then
    .ok { success := false, processed := 0,
          errors := ["Pipeline error: ".toList ++ env.fetchErrorMsg] }
  else
    let taken := env.items.take (effectiveMaxItems maxItems)
    let ext := extractionStep taken
    .ok { success := true, processed := ext.1,
          errors := ext.2 ++ enrichmentStep env.aiReady taken }

end Pipeline

/-! ### Concrete inputs used by witnesses and counterexamples -/

namespace Examples

open ThreatCampaignDetector DataStorage Pipeline

/-- The spec's domain/URL non-overlap example text. -/
def urlExampleText : List Char := "visit https://evil.com/path for details".toList

/-- An adversarial text: removing the matched URL `https://evil.com:99`
splices the surrounding `evil.c` and `om` back together, recreating the
host `evil.com` in the URL-stripped copy. -/
def glueText : List Char := "evil.chttps://evil.com:99om".toList

/-- A text containing the same domain twice, differing only in case: the
first occurrence has a plain context (confidence 0.7), the second sits
next to the keywords `malicious` and `attack` (confidence 0.9). -/
def dupText : List Char :=
  "ZZA-ONE.com zzzz wwww zzzz wwww zzzz wwww zzzz wwww zzzz wwww zzzz wwww malicious attack zza-one.com".toList

/-- A word-bounded string of 31 hexadecimal characters. -/
def hex31 : List Char := "aaaabbbbccccddddeeeeffff0000111".toList

/-- A word-bounded string of 32 hexadecimal characters. -/
def hex32 : List Char := "aaaabbbbccccddddeeeeffff00001111".toList

/-- An empty IOC collection. -/
def noIOCs : ReportIOCs := ⟨[], [], [], [], []⟩

/-- A low-severity report tagged `conti`. -/
def repLow : ThreatReport :=
  ⟨"aaa".toList, "".toList, ["conti".toList], 0, .low, noIOCs⟩

/-- A critical-severity report tagged `conti`. -/
def repCrit : ThreatReport :=
  ⟨"bbb".toList, "".toList, ["conti".toList], 0, .critical, noIOCs⟩

/-- A medium-severity report tagged `conti`. -/
def repMed : ThreatReport :=
  ⟨"ccc".toList, "".toList, ["conti".toList], 0, .medium, noIOCs⟩

/-- A cluster-forming corpus with severities low, critical, medium. -/
def sevReports : List ThreatReport := [repLow, repCrit, repMed]

/-- The campaign detected on `sevReports`. -/
def sevCampaign : Campaign :=
  ((detectCampaigns 0 sevReports).head?).getD ⟨[], .low, 0, 0, 0⟩

/-- A report tagged `conti` carrying a single ip indicator. -/
def repIpA : ThreatReport :=
  ⟨"aaa".toList, "".toList, ["conti".toList], 0, .low,
   ⟨["1.1.1.1".toList], [], [], [], []⟩⟩

/-- A report tagged `conti` carrying a different single ip indicator. -/
def repIpB : ThreatReport :=
  ⟨"bbb".toList, "".toList, ["conti".toList], 0, .low,
   ⟨["2.2.2.2".toList], [], [], [], []⟩⟩

/-- A two-report cluster whose members share the `conti` keyword but no
indicator value. -/
def ipReports : List ThreatReport := [repIpA, repIpB]

/-- The campaign detected on `ipReports`. -/
def ipCampaign : Campaign :=
  ((detectCampaigns 0 ipReports).head?).getD ⟨[], .low, 0, 0, 0⟩

/-- An invocation while the pipeline is already processing. -/
def reentrantEnv : RunEnv := ⟨true, false, [], true, []⟩

/-- A normal invocation: three items, the first failing extraction, the
second failing enrichment. -/
def normalEnv : RunEnv :=
  ⟨false, false, [], true,
   [⟨"t1".toList, true, false⟩, ⟨"t2".toList, false, true⟩,
    ⟨"t3".toList, false, false⟩]⟩

/-- A stored domain indicator with confidence 0.9. -/
def iocHigh : ExtractedIOC := ⟨.domain, "evil-a.com".toList, "c".toList, 9/10⟩

/-- The same indicator observed again with confidence 0.6. -/
def iocLow : ExtractedIOC := ⟨.domain, "evil-a.com".toList, "c".toList, 6/10⟩

/-- A case-variant of the same domain, confidence 0.7. -/
def iocUpper : ExtractedIOC := ⟨.domain, "EVIL-A.com".toList, "c".toList, 7/10⟩

/-- `iocHigh` as stored by `addIOCs` from report `r0` at time 0. -/
def storedHigh : StoredIOC := stampIOC "r0".toList 0 iocHigh

end Examples

/-! ### Helper lemmas -/

lemma natMin_eq_min (a b : Nat) : natMin a b = min a b := by
  rw [natMin, min_def]

lemma natMax_eq_max (a b : Nat) : natMax a b = max a b := by
  rw [natMax, max_def]

lemma ratMin_eq_min (a b : ℚ) : ratMin a b = min a b := by
  rw [ratMin, min_def]

lemma ratMax_eq_max (a b : ℚ) : ratMax a b = max a b := by
  rw [ratMax, max_def]

lemma intMin_eq_min (a b : ℤ) : intMin a b = min a b := by
  rw [intMin, min_def]

lemma intMax_eq_max (a b : ℤ) : intMax a b = max a b := by
  rw [intMax, max_def]

lemma mem_insertBefore (lt : α → α → Bool) (x a : α) (l : List α) :
    a ∈ insertBefore lt x l ↔ a = x ∨ a ∈ l := by
  induction l with
  | nil => simp [insertBefore]
  | cons y ys ih =>
    rw [insertBefore]
    split
    · simp [List.mem_cons]
    · simp only [List.mem_cons, ih]
      tauto

lemma mem_stableSortBy (lt : α → α → Bool) (a : α) (l : List α) :
    a ∈ stableSortBy lt l ↔ a ∈ l := by
  suffices h : ∀ (l : List α) (acc : List α),
      a ∈ l.foldl (fun acc x => insertBefore lt x acc) acc ↔ a ∈ acc ∨ a ∈ l by
    simpa [stableSortBy] using h l []
  intro l
  induction l with
  | nil => simp
  | cons x xs ih =>
    intro acc
    rw [List.foldl_cons, ih, mem_insertBefore]
    simp only [List.mem_cons]
    tauto

namespace IOCExtractor

lemma byTypeFold_apply (l : List ExtractedIOC) (t : IOCType) :
    byTypeFold l t = l.countP (fun i => i.type == t) := by
  suffices h : ∀ (l : List ExtractedIOC) (m : IOCType → Nat),
      (l.foldl (fun m i => fun t => if t == i.type then m t + 1 else m t) m) t
        = m t + l.countP (fun i => i.type == t) by
    simpa [byTypeFold] using h l (fun _ => 0)
  intro l
  induction l with
  | nil => simp
  | cons i is ih =>
    intro m
    rw [List.foldl_cons, List.countP_cons, ih]
    by_cases h : t = i.type
    · simp [h, beq_iff_eq]
      omega
    · have h2 : ¬i.type = t := fun hh => h hh.symm
      simp [beq_iff_eq, h, h2]

/-- The five indicator types. -/
def allTypes : List IOCType := [.ip, .url, .hash, .domain, .email]

lemma sum_countP_types (l : List ExtractedIOC) :
    (allTypes.map (fun t => l.countP (fun i => i.type == t))).sum = l.length := by
  induction l with
  | nil => simp [allTypes]
  | cons i is ih =>
    simp only [allTypes, List.map_cons, List.map_nil, List.sum_cons,
      List.sum_nil, List.countP_cons, List.length_cons] at ih ⊢
    cases i.type <;> simp [beq_iff_eq] <;> omega

lemma dedupeSpec_nil : dedupeSpec [] = [] := by
  rw [dedupeSpec]

lemma dedupeSpec_cons (i : ExtractedIOC) (rest : List ExtractedIOC) :
    dedupeSpec (i :: rest) =
      if shouldIncludeIOC i then
        i :: dedupeSpec (rest.filter (fun j => !(keyOf j == keyOf i)))
      else dedupeSpec rest := by
  rw [dedupeSpec]

lemma dedupeFold_eq_spec (l : List ExtractedIOC)
    (seen : List (IOCType × List Char)) :
    dedupeFold seen l = dedupeSpec (l.filter (fun j => !seen.contains (keyOf j))) := by
  induction l generalizing seen with
  | nil => simp [dedupeFold, dedupeSpec_nil]
  | cons i rest ih =>
    rw [dedupeFold, List.filter_cons]
    by_cases hc : seen.contains (keyOf i) = true
    · rw [if_pos hc, hc]
      rw [if_neg (by simp)]
      exact ih seen
    · have hcf : seen.contains (keyOf i) = false := by
        cases h2 : seen.contains (keyOf i)
        · rfl
        · exact absurd h2 hc
      rw [hcf, if_neg (by simp)]
      rw [if_pos (show (!false) = true from rfl)]
      rw [dedupeSpec_cons]
      by_cases hp : shouldIncludeIOC i = true
      · rw [if_pos hp, if_pos hp]
        congr 1
        rw [ih (keyOf i :: seen), List.filter_filter]
        congr 1
        apply List.filter_congr
        intro j _
        simp only [List.contains_cons, Bool.not_or]
      · rw [if_neg hp, if_neg hp]
        exact ih seen

lemma filterAndDedupe_eq_spec (raw : List ExtractedIOC) :
    filterAndDedupeIOCs raw =
      stableSortBy (fun a b => b.confidence < a.confidence) (dedupeSpec raw) := by
  unfold filterAndDedupeIOCs
  rw [dedupeFold_eq_spec raw []]
  congr 1
  rw [List.filter_eq_self.mpr]
  intro a _
  simp

end IOCExtractor

namespace DataStorage

lemma upsertIOC_no_change (ex : List StoredIOC) (m : StoredIOC) (j : StoredIOC)
    (hf : ex.find? (fun i => i.type == m.type && i.value == m.value) = some j)
    (hc : m.confidence ≤ j.confidence) : upsertIOC m ex = ex := by
  induction ex with
  | nil => simp at hf
  | cons i rest ih =>
    rw [List.find?_cons] at hf
    rw [upsertIOC]
    by_cases hp : (i.type == m.type && i.value == m.value) = true
    · simp only [hp, if_true] at hf ⊢
      injection hf with hf
      subst hf
      rw [if_neg (not_lt.mpr hc)]
    · simp only [hp, if_false, Bool.not_eq_true] at *
      simp only [hp, Bool.false_eq_true, if_false] at hf ⊢
      rw [ih hf]

end DataStorage

namespace Pipeline

lemma extractionStep_eq (jobs : List FeedJob) :
    extractionStep jobs =
      (jobs.countP (fun j => !j.extractThrows),
       (jobs.filter (fun j => j.extractThrows)).map
         (fun j => "IOC extraction failed for ".toList ++ j.title)) := by
  suffices h : ∀ (jobs : List FeedJob) (p : Nat) (e : List (List Char)),
      jobs.foldl (fun acc j =>
        if j.extractThrows then
          (acc.1, acc.2 ++ ["IOC extraction failed for ".toList ++ j.title])
        else (acc.1 + 1, acc.2)) (p, e)
        = (p + jobs.countP (fun j => !j.extractThrows),
           e ++ (jobs.filter (fun j => j.extractThrows)).map
             (fun j => "IOC extraction failed for ".toList ++ j.title)) by
    simpa [extractionStep] using h jobs 0 []
  intro jobs
  induction jobs with
  | nil => intro p e; simp
  | cons j js ih =>
    intro p e
    rw [List.foldl_cons, List.countP_cons, List.filter_cons]
    by_cases hj : j.extractThrows = true
    · simp only [hj, if_pos, ite_true, ih, Bool.not_true]
      simp
    · have hjf : j.extractThrows = false := by
        cases h2 : j.extractThrows
        · rfl
        · exact absurd h2 hj
      simp only [hjf, Bool.false_eq_true, ite_false, ih, Bool.not_false]
      simp [Nat.add_assoc, Nat.add_comm 1]

lemma enrichmentStep_eq (jobs : List FeedJob) :
    enrichmentStep true jobs =
      (jobs.filter (fun j => j.enrichThrows)).map
        (fun j => "AI summary failed for ".toList ++ j.title) := by
  suffices h : ∀ (jobs : List FeedJob) (e : List (List Char)),
      jobs.foldl (fun errs j =>
        if j.enrichThrows then
          errs ++ ["AI summary failed for ".toList ++ j.title]
        else errs) e
        = e ++ (jobs.filter (fun j => j.enrichThrows)).map
            (fun j => "AI summary failed for ".toList ++ j.title) by
    simpa [enrichmentStep] using h jobs []
  intro jobs
  induction jobs with
  | nil => intro e; simp
  | cons j js ih =>
    intro e
    rw [List.foldl_cons, List.filter_cons]
    by_cases hj : j.enrichThrows = true
    · simp only [hj, ite_true, ih]
      simp
    · have hjf : j.enrichThrows = false := by
        cases h2 : j.enrichThrows
        · rfl
        · exact absurd h2 hj
      simp only [hjf, Bool.false_eq_true, ite_false, ih]

end Pipeline

namespace ThreatCampaignDetector

/-- One step of the highest-severity loop. -/
def sevStep (acc : Severity) (r : ThreatReport) : Severity :=
  if severityLevel acc < severityLevel r.severity then r.severity else acc

lemma highestSeverity_eq_foldl (rs : List ThreatReport) :
    highestSeverity rs = rs.foldl sevStep .low := rfl

lemma sevStep_le_left (a : Severity) (r : ThreatReport) :
    severityLevel a ≤ severityLevel (sevStep a r) := by
  rw [sevStep]
  split
  · omega
  · exact le_refl _

lemma sevStep_le_right (a : Severity) (r : ThreatReport) :
    severityLevel r.severity ≤ severityLevel (sevStep a r) := by
  rw [sevStep]
  split
  · exact le_refl _
  · omega

lemma foldl_sevStep_acc_le (rs : List ThreatReport) :
    ∀ a : Severity, severityLevel a ≤ severityLevel (rs.foldl sevStep a) := by
  induction rs with
  | nil => intro a; exact le_refl _
  | cons r rs ih =>
    intro a
    rw [List.foldl_cons]
    exact le_trans (sevStep_le_left a r) (ih (sevStep a r))

lemma foldl_sevStep_mem_le (rs : List ThreatReport) :
    ∀ (a : Severity), ∀ r ∈ rs,
      severityLevel r.severity ≤ severityLevel (rs.foldl sevStep a) := by
  induction rs with
  | nil => intro a r hr; simp at hr
  | cons x xs ih =>
    intro a r hr
    rw [List.foldl_cons]
    rcases List.mem_cons.mp hr with rfl | hr2
    · exact le_trans (sevStep_le_right a r) (foldl_sevStep_acc_le xs (sevStep a r))
    · exact ih (sevStep a x) r hr2

lemma foldl_sevStep_cases (rs : List ThreatReport) :
    ∀ a : Severity, rs.foldl sevStep a = a ∨
      ∃ r ∈ rs, rs.foldl sevStep a = r.severity := by
  induction rs with
  | nil => intro a; exact Or.inl rfl
  | cons x xs ih =>
    intro a
    rw [List.foldl_cons]
    rcases ih (sevStep a x) with h | ⟨r, hr, h⟩
    · rw [h, sevStep]
      split
      · exact Or.inr ⟨x, List.mem_cons_self x xs, rfl⟩
      · exact Or.inl rfl
    · exact Or.inr ⟨r, List.mem_cons_of_mem x hr, h⟩

lemma severity_eq_low_of_level_le_one (s : Severity)
    (h : severityLevel s ≤ 1) : s = .low := by
  cases s
  · rfl
  all_goals simp [severityLevel] at h

lemma highestSeverity_is_max (rs : List ThreatReport) (hne : rs ≠ []) :
    (∀ r ∈ rs, severityLevel r.severity ≤ severityLevel (highestSeverity rs)) ∧
      ∃ r ∈ rs, r.severity = highestSeverity rs := by
  constructor
  · intro r hr
    rw [highestSeverity_eq_foldl]
    exact foldl_sevStep_mem_le rs .low r hr
  · rcases foldl_sevStep_cases rs .low with h | ⟨r, hr, h⟩
    · rcases rs with _ | ⟨r, rest⟩
      · exact absurd rfl hne
      · refine ⟨r, List.mem_cons_self r rest, ?_⟩
        rw [highestSeverity_eq_foldl, h]
        apply severity_eq_low_of_level_le_one
        have h2 := foldl_sevStep_mem_le (r :: rest) .low r
          (List.mem_cons_self r rest)
        rw [h] at h2
        simpa [severityLevel] using h2
    · exact ⟨r, hr, by rw [highestSeverity_eq_foldl, h]⟩

lemma mem_detectCampaigns (now : ℤ) (reports : List ThreatReport)
    (c : Campaign) (h : c ∈ detectCampaigns now reports) :
    ∃ rs, rs ∈ buildClusters reports ∧ 1 < rs.length ∧ c = mkCampaign now rs := by
  rw [detectCampaigns, mem_stableSortBy] at h
  rcases List.mem_map.mp h with ⟨rs, hrs, hc⟩
  rcases List.mem_filter.mp hrs with ⟨h1, h2⟩
  exact ⟨rs, h1, by simpa using h2, hc.symm⟩

lemma foldl_add_ages (now : ℤ) (rs : List ThreatReport) :
    ∀ init : ℚ,
      rs.foldl (fun s r => s + ((now - r.timestamp : ℤ) : ℚ)) init
        = init + (rs.map (fun r => ((now - r.timestamp : ℤ) : ℚ))).sum := by
  induction rs with
  | nil => intro init; simp
  | cons r rs ih =>
    intro init
    rw [List.foldl_cons, ih, List.map_cons, List.sum_cons]
    ring

lemma addToSet_nodup {α} [DecidableEq α] (acc : List α) (x : α)
    (h : acc.Nodup) : (addToSet acc x).Nodup := by
  rw [addToSet]
  split
  · exact h
  · next hx =>
    rw [List.nodup_append]
    refine ⟨h, List.nodup_singleton x, ?_⟩
    intro a ha hax
    rw [List.mem_singleton] at hax
    subst hax
    exact hx ha

lemma addToSet_toFinset {α} [DecidableEq α] (acc : List α) (x : α) :
    (addToSet acc x).toFinset = insert x acc.toFinset := by
  rw [addToSet]
  split
  · next hmem =>
    ext a
    simp only [Finset.mem_insert, List.mem_toFinset]
    constructor
    · exact Or.inr
    · rintro (rfl | ha)
      · exact hmem
      · exact ha
  · ext a
    simp only [List.toFinset_append, Finset.mem_union, List.mem_toFinset,
      Finset.mem_insert, List.mem_singleton]
    tauto

lemma foldl_addToSet_nodup {α} [DecidableEq α] (vs : List α) :
    ∀ acc : List α, acc.Nodup → (vs.foldl addToSet acc).Nodup := by
  induction vs with
  | nil => intro acc h; exact h
  | cons v vs ih =>
    intro acc h
    rw [List.foldl_cons]
    exact ih (addToSet acc v) (addToSet_nodup acc v h)

lemma foldl_addToSet_toFinset {α} [DecidableEq α] (vs : List α) :
    ∀ acc : List α, (vs.foldl addToSet acc).toFinset = acc.toFinset ∪ vs.toFinset := by
  induction vs with
  | nil => intro acc; simp
  | cons v vs ih =>
    intro acc
    rw [List.foldl_cons, ih, addToSet_toFinset]
    ext a
    simp only [Finset.mem_union, Finset.mem_insert, List.mem_toFinset,
      List.toFinset_cons]
    tauto

lemma length_foldl_addToSet {α} [DecidableEq α] (vs : List α) :
    (vs.foldl addToSet ([] : List α)).length = vs.dedup.length := by
  have h1 : (vs.foldl addToSet ([] : List α)).Nodup :=
    foldl_addToSet_nodup vs [] (List.nodup_nil)
  have h2 : (vs.foldl addToSet ([] : List α)).toFinset = vs.toFinset := by
    rw [foldl_addToSet_toFinset]
    simp
  calc (vs.foldl addToSet ([] : List α)).length
      = (vs.foldl addToSet ([] : List α)).toFinset.card :=
        (List.toFinset_card_of_nodup h1).symm
    _ = vs.toFinset.card := by rw [h2]
    _ = vs.dedup.length := List.card_toFinset vs

lemma foldl_flatten_addToSet {α} [DecidableEq α] (L : List (List α)) :
    ∀ acc : List α,
      L.flatten.foldl addToSet acc
        = L.foldl (fun acc l => l.foldl addToSet acc) acc := by
  induction L with
  | nil => intro acc; simp
  | cons l ls ih =>
    intro acc
    rw [List.flatten_cons, List.foldl_append, List.foldl_cons, ih]

lemma iocUnion_eq_foldl (f : ReportIOCs → List (List Char))
    (rs : List ThreatReport) :
    iocUnion f rs = (allVals f rs).foldl addToSet [] := by
  rw [iocUnion, allVals, foldl_flatten_addToSet, List.foldl_map]

lemma iocUnion_length (f : ReportIOCs → List (List Char))
    (rs : List ThreatReport) :
    (iocUnion f rs).length = (allVals f rs).dedup.length := by
  rw [iocUnion_eq_foldl, length_foldl_addToSet]

lemma sharedIocCount_eq_amended (rs : List ThreatReport) :
    sharedIocCount rs = amendedSharedCount rs := by
  rw [sharedIocCount, amendedSharedCount]
  congr 1
  apply List.map_congr_left
  intro f _
  rw [iocUnion_length]

lemma calculateConfidence_eq_amended (now : ℤ) (rs : List ThreatReport)
    (h : 2 ≤ rs.length) :
    calculateConfidence now rs = amendedConfidence now rs := by
  rw [calculateConfidence, if_neg (by omega), amendedConfidence, avgAgeMs,
    sharedIocCount_eq_amended, foldl_add_ages, zero_add]

end ThreatCampaignDetector

/-! ### Character-level lemmas for hexadecimal texts -/

lemma hex_cases (c : Char) (h : isHexC c = true) :
    ('0' ≤ c ∧ c ≤ '9') ∨ ('a' ≤ c ∧ c ≤ 'f') ∨ ('A' ≤ c ∧ c ≤ 'F') := by
  simp only [isHexC, isDigitC, Bool.or_eq_true, Bool.and_eq_true,
    decide_eq_true_eq] at h
  tauto

lemma toNat_ofNat_valid (n : ℕ) (h : n.isValidChar) :
    (Char.ofNat n).toNat = n := by
  simp only [Char.ofNat, dif_pos h]
  rfl

lemma lowerC_toNat_of_hex (c : Char) (h : isHexC c = true) :
    (48 ≤ (lowerC c).toNat ∧ (lowerC c).toNat ≤ 57) ∨
      (97 ≤ (lowerC c).toNat ∧ (lowerC c).toNat ≤ 102) := by
  rcases hex_cases c h with ⟨h1, h2⟩ | ⟨h1, h2⟩ | ⟨h1, h2⟩
  · have hu : ¬isUpperC c = true := by
      simp only [isUpperC, Bool.and_eq_true, decide_eq_true_eq]
      rintro ⟨ha, _⟩
      exact absurd (le_trans ha h2) (by decide)
    rw [lowerC, if_neg hu]
    exact Or.inl ⟨h1, h2⟩
  · have hu : ¬isUpperC c = true := by
      simp only [isUpperC, Bool.and_eq_true, decide_eq_true_eq]
      rintro ⟨_, hz⟩
      exact absurd (le_trans h1 hz) (by decide)
    rw [lowerC, if_neg hu]
    exact Or.inr ⟨h1, h2⟩
  · have hu : isUpperC c = true := by
      simp only [isUpperC, Bool.and_eq_true, decide_eq_true_eq]
      exact ⟨h1, le_trans h2 (by decide)⟩
    rw [lowerC, if_pos hu]
    have h65 : 65 ≤ c.toNat := h1
    have h70 : c.toNat ≤ 70 := h2
    have hv : (c.toNat + 32).isValidChar := by
      left
      omega
    rw [toNat_ofNat_valid _ hv]
    right
    omega

lemma lowerC_hex_ne (c w : Char) (h : isHexC c = true)
    (hw : w.toNat < 48 ∨ (57 < w.toNat ∧ w.toNat < 97) ∨ 102 < w.toNat) :
    lowerC c ≠ w := by
  intro he
  rcases lowerC_toNat_of_hex c h with ⟨h1, h2⟩ | ⟨h1, h2⟩ <;>
    rw [he] at h1 h2 <;> omega

lemma hex_ne (c w : Char) (h : isHexC c = true) (hw : isHexC w = false) :
    c ≠ w := by
  rintro rfl
  rw [h] at hw
  exact absurd hw (by simp)

/-! ### Substring lemmas -/

lemma startsWithL_sub (pre cs : List Char) (h : startsWithL pre cs = true) :
    ∀ a ∈ pre, a ∈ cs := by
  induction pre generalizing cs with
  | nil => intro a ha; simp at ha
  | cons p ps ih =>
    cases cs with
    | nil => simp [startsWithL] at h
    | cons c ct =>
      rw [startsWithL, Bool.and_eq_true] at h
      obtain ⟨h1, h2⟩ := h
      have hpc : p = c := by simpa using h1
      intro a ha
      rcases List.mem_cons.mp ha with rfl | ha2
      · rw [hpc]; exact List.mem_cons_self _ _
      · exact List.mem_cons_of_mem _ (ih ct h2 a ha2)

lemma includesL_sub (pat hay : List Char) (h : includesL pat hay = true) :
    ∀ a ∈ pat, a ∈ hay := by
  induction hay with
  | nil =>
    rw [includesL] at h
    cases pat with
    | nil => intro a ha; simp at ha
    | cons p ps => simp [startsWithL] at h
  | cons c ct ih =>
    rw [includesL, Bool.or_eq_true] at h
    rcases h with h | h
    · exact startsWithL_sub pat (c :: ct) h
    · exact fun a ha => List.mem_cons_of_mem _ (ih h a ha)

lemma includesL_false_of_badchar (pat hay : List Char) (w : Char) (hw : w ∈ pat)
    (hout : w ∉ hay) : includesL pat hay = false := by
  cases h : includesL pat hay
  · rfl
  · exact absurd (includesL_sub pat hay h w hw) hout

lemma startsWithL_refl (cs : List Char) : startsWithL cs cs = true := by
  induction cs with
  | nil => rfl
  | cons c ct ih => simp [startsWithL, ih]

lemma idxOf_self (cs : List Char) : idxOf? cs cs = some 0 := by
  cases cs with
  | nil => rfl
  | cons c ct => rw [idxOf?, if_pos (startsWithL_refl (c :: ct))]

lemma mem_lowerL (a : Char) (s : List Char) (h : a ∈ lowerL s) :
    ∃ c ∈ s, lowerC c = a := by
  simpa [lowerL] using List.mem_map.mp h

/-! ### Run / trim lemmas -/

lemma countWhile_eq_length (p : Char → Bool) (cs : List Char)
    (h : ∀ c ∈ cs, p c = true) : countWhile p cs = cs.length := by
  induction cs with
  | nil => rfl
  | cons c ct ih =>
    rw [countWhile, if_pos (h c (List.mem_cons_self c ct)), List.length_cons,
      ih (fun d hd => h d (List.mem_cons_of_mem c hd))]

lemma dropWhile_eq_self_of (p : Char → Bool) (cs : List Char)
    (h : ∀ c ∈ cs, p c = false) : cs.dropWhile p = cs := by
  cases cs with
  | nil => rfl
  | cons c ct =>
    rw [List.dropWhile_cons, if_neg]
    rw [h c (List.mem_cons_self c ct)]
    simp

lemma trimL_eq_self (cs : List Char) (h : ∀ c ∈ cs, isWsC c = false) :
    trimL cs = cs := by
  rw [trimL, dropWhile_eq_self_of _ _ h, dropWhile_eq_self_of, List.reverse_reverse]
  intro c hc
  exact h c (by simpa using hc)

lemma isWsC_hex_false (c : Char) (h : isHexC c = true) : isWsC c = false := by
  cases hw : isWsC c
  · rfl
  · simp only [isWsC, Bool.or_eq_true, beq_iff_eq] at hw
    rcases hw with ((rfl | rfl) | rfl) | rfl <;> exact absurd h (by decide)

/-! ### Scanner vacuity lemmas -/

lemma firstSome_none {f : Nat → Option Nat} {L : List Nat}
    (H : ∀ n ∈ L, f n = none) : firstSome f L = none := by
  induction L with
  | nil => rfl
  | cons n ns ih =>
    rw [firstSome, H n (List.mem_cons_self n ns)]
    exact ih (fun x hx => H x (List.mem_cons_of_mem n hx))

lemma get?_beq_false_of_hex (cs : List Char) (h : ∀ c ∈ cs, isHexC c = true)
    (n : Nat) (w : Char) (hw : isHexC w = false) :
    (cs.get? n == some w) = false := by
  cases hq : (cs.get? n == some w)
  · rfl
  · have h2 : cs.get? n = some w := by simpa using hq
    exact absurd (h w (List.get?_mem h2)) (by rw [hw]; simp)

lemma scanFrom_nil_of_none (m : Option Char → List Char → Option Nat)
    (p : Char → Bool)
    (H : ∀ prev cs, (∀ c ∈ cs, p c = true) → m prev cs = none) :
    ∀ (fuel : Nat) (prev : Option Char) (cs : List Char),
      (∀ c ∈ cs, p c = true) → scanFrom m fuel prev cs = [] := by
  intro fuel
  induction fuel with
  | zero => intro prev cs _; rfl
  | succ n ih =>
    intro prev cs h
    cases cs with
    | nil => rfl
    | cons c ct =>
      rw [scanFrom]
      rw [H prev (c :: ct) h]
      exact ih (some c) ct (fun d hd => h d (List.mem_cons_of_mem c hd))

lemma scanFrom_nil_of_short (m : Option Char → List Char → Option Nat)
    (N : Nat) (H : ∀ prev cs, cs.length ≤ N → m prev cs = none) :
    ∀ (fuel : Nat) (prev : Option Char) (cs : List Char),
      cs.length ≤ N → scanFrom m fuel prev cs = [] := by
  intro fuel
  induction fuel with
  | zero => intro prev cs _; rfl
  | succ n ih =>
    intro prev cs h
    cases cs with
    | nil => rfl
    | cons c ct =>
      rw [scanFrom]
      rw [H prev (c :: ct) h]
      exact ih (some c) ct (le_trans (by simp) h)

lemma stripFrom_id_of_none (m : Option Char → List Char → Option Nat)
    (p : Char → Bool)
    (H : ∀ prev cs, (∀ c ∈ cs, p c = true) → m prev cs = none) :
    ∀ (fuel : Nat) (prev : Option Char) (cs : List Char),
      (∀ c ∈ cs, p c = true) → stripFrom m fuel prev cs = cs := by
  intro fuel
  induction fuel with
  | zero => intro prev cs _; rfl
  | succ n ih =>
    intro prev cs h
    cases cs with
    | nil => rfl
    | cons c ct =>
      rw [stripFrom]
      rw [H prev (c :: ct) h]
      rw [ih (some c) ct (fun d hd => h d (List.mem_cons_of_mem c hd))]

/-! ### Matcher vacuity on hexadecimal texts

Every non-hash matcher requires a character a hexadecimal text cannot
contain (the scheme `h`, a dot, a colon, an `@`, a case-insensitive `v` or
`g`, an upper-case `T`), and a fixed-length hash matcher requires at
least its length. -/

lemma startsWith_nonhex_head_false (w : Char) (pre cs : List Char)
    (hw : isHexC w = false) (h : ∀ c ∈ cs, isHexC c = true) :
    startsWithL (w :: pre) cs = false := by
  cases cs with
  | nil => rfl
  | cons c ct =>
    rw [startsWithL]
    have hne : (w == c) = false := by
      cases hq : (w == c)
      · rfl
      · have hwc : w = c := by simpa using hq
        subst hwc
        exact absurd (h w (List.mem_cons_self w ct)) (by rw [hw]; simp)
    rw [hne, Bool.false_and]

lemma urlAt_none_of_hex (prev : Option Char) (cs : List Char)
    (h : ∀ c ∈ cs, isHexC c = true) : urlAt prev cs = none := by
  rw [urlAt]
  rw [show ("https://".toList) = 'h' :: "ttps://".toList from rfl,
    show ("http://".toList) = 'h' :: "ttp://".toList from rfl]
  rw [startsWith_nonhex_head_false 'h' _ cs (by decide) h,
    startsWith_nonhex_head_false 'h' _ cs (by decide) h]
  simp

lemma domainAt_none_of_hex (prev : Option Char) (cs : List Char)
    (h : ∀ c ∈ cs, isHexC c = true) : domainAt prev cs = none := by
  cases cs with
  | nil => rfl
  | cons c ct =>
    simp only [domainAt.eq_def]
    split
    · apply firstSome_none
      intro n _
      rw [get?_beq_false_of_hex (c :: ct) h n '.' (by decide)]
      simp
    · rfl

lemma ipv4Seq_none_of_hex (k : Nat) (cs : List Char)
    (h : ∀ c ∈ cs, isHexC c = true) : ipv4Seq (k + 1) cs = none := by
  rw [ipv4Seq]
  apply firstSome_none
  intro n _
  rw [get?_beq_false_of_hex cs h n '.' (by decide)]
  simp

lemma ipv4At_none_of_hex (prev : Option Char) (cs : List Char)
    (h : ∀ c ∈ cs, isHexC c = true) : ipv4At prev cs = none := by
  cases cs with
  | nil => rfl
  | cons c ct =>
    simp only [ipv4At.eq_def]
    split
    · exact ipv4Seq_none_of_hex 2 (c :: ct) h
    · rfl

lemma hexGroupAt_none_of_hex (cs : List Char)
    (h : ∀ c ∈ cs, isHexC c = true) : hexGroupAt cs = none := by
  rw [hexGroupAt, countWhile_eq_length isHexC cs h]
  rw [List.get?_eq_none.mpr (le_refl _)]
  simp

lemma hexGroups_zero_of_hex (g : Nat) (cs : List Char)
    (h : ∀ c ∈ cs, isHexC c = true) : hexGroups g cs = (0, 0) := by
  cases g with
  | zero => rfl
  | succ n => rw [hexGroups, hexGroupAt_none_of_hex cs h]

lemma ipv6At_none_of_hex (prev : Option Char) (cs : List Char)
    (h : ∀ c ∈ cs, isHexC c = true) : ipv6At prev cs = none := by
  cases cs with
  | nil => rfl
  | cons c ct =>
    simp only [ipv6At.eq_def]
    split
    · have a1 : ipv6Alt1 (c :: ct) = none := by
        rw [ipv6Alt1, hexGroups_zero_of_hex 7 _ h]
        simp
      have a2 : ipv6Alt2 (c :: ct) = none := by
        rw [ipv6Alt2, hexGroups_zero_of_hex 7 _ h]
        simp
      have a3 : ipv6Alt3 (c :: ct) = none := by
        rw [ipv6Alt3, hexGroups_zero_of_hex 6 _ h]
        simp
      rw [a1, a2, a3]
    · rfl

lemma emailAt_none_of_hex (prev : Option Char) (cs : List Char)
    (h : ∀ c ∈ cs, isHexC c = true) : emailAt prev cs = none := by
  cases cs with
  | nil => rfl
  | cons c ct =>
    simp only [emailAt.eq_def]
    split
    · rfl
    · by_cases hl : (countWhile isLocalC (c :: ct) == 0) = true
      · rw [if_pos hl]
      · rw [if_neg hl]
        have hb : ((c :: ct).get? (countWhile isLocalC (c :: ct)) == some '@')
            = false :=
          get?_beq_false_of_hex _ h _ '@' (by decide)
        split
        · rfl
        · next hx =>
          exfalso
          simp only [bne, hb] at hx
          exact hx rfl

lemma startsWithCI_cve_false (cs : List Char)
    (h : ∀ c ∈ cs, isHexC c = true) : startsWithCI "cve".toList cs = false := by
  rw [startsWithCI]
  cases cs with
  | nil => rfl
  | cons c ct =>
    cases ct with
    | nil => simp [lowerL, startsWithL]
    | cons c2 ct2 =>
      have hne : ('v' == lowerC c2) = false := by
        cases hq : ('v' == lowerC c2)
        · rfl
        · have hv : 'v' = lowerC c2 := by simpa using hq
          exact absurd hv.symm (lowerC_hex_ne c2 'v'
            (h c2 (List.mem_cons_of_mem c (List.mem_cons_self c2 ct2)))
            (by decide))
      rw [show lowerL "cve".toList = 'c' :: 'v' :: 'e' :: [] by decide]
      simp [lowerL, startsWithL, hne]

lemma startsWithCI_vuln_false (cs : List Char)
    (h : ∀ c ∈ cs, isHexC c = true) :
    startsWithCI "vulnerability".toList cs = false := by
  rw [startsWithCI]
  cases cs with
  | nil => rfl
  | cons c ct =>
    have hne : ('v' == lowerC c) = false := by
      cases hq : ('v' == lowerC c)
      · rfl
      · have hv : 'v' = lowerC c := by simpa using hq
        exact absurd hv.symm (lowerC_hex_ne c 'v'
          (h c (List.mem_cons_self c ct)) (by decide))
    rw [show lowerL "vulnerability".toList
        = 'v' :: lowerL "ulnerability".toList by decide]
    simp [lowerL, startsWithL, hne]

lemma cveAt_none_of_hex (prev : Option Char) (cs : List Char)
    (h : ∀ c ∈ cs, isHexC c = true) : cveAt prev cs = none := by
  rw [cveAt]
  rw [startsWithCI_cve_false cs h, startsWithCI_vuln_false cs h]
  simp

lemma startsWithCI_ghsa_false (cs : List Char)
    (h : ∀ c ∈ cs, isHexC c = true) :
    startsWithCI "ghsa-".toList cs = false := by
  rw [startsWithCI]
  cases cs with
  | nil => rfl
  | cons c ct =>
    have hne : ('g' == lowerC c) = false := by
      cases hq : ('g' == lowerC c)
      · rfl
      · have hg : 'g' = lowerC c := by simpa using hq
        exact absurd hg.symm (lowerC_hex_ne c 'g'
          (h c (List.mem_cons_self c ct)) (by decide))
    rw [show lowerL "ghsa-".toList = 'g' :: lowerL "hsa-".toList by decide]
    simp [lowerL, startsWithL, hne]

lemma ghsaAt_none_of_hex (prev : Option Char) (cs : List Char)
    (h : ∀ c ∈ cs, isHexC c = true) : ghsaAt prev cs = none := by
  cases cs with
  | nil => rfl
  | cons c ct =>
    simp only [ghsaAt.eq_def]
    split
    · rfl
    · rw [if_pos]
      rw [startsWithCI_ghsa_false (c :: ct) h]
      simp

lemma mitreAt_none_of_hex (prev : Option Char) (cs : List Char)
    (h : ∀ c ∈ cs, isHexC c = true) : mitreAt prev cs = none := by
  cases cs with
  | nil => rfl
  | cons c ct =>
    simp only [mitreAt.eq_def]
    split
    · rfl
    · rw [if_pos]
      have hne : (c == 'T') = false := by
        cases hq : (c == 'T')
        · rfl
        · have hc : c = 'T' := by simpa using hq
          subst hc
          exact absurd (h 'T' (List.mem_cons_self _ ct)) (by decide)
      simp [bne, hne]

lemma fixedHexAt_none_of_short (k : Nat) (prev : Option Char)
    (cs : List Char) (hk : cs.length < k) : fixedHexAt k prev cs = none := by
  cases cs with
  | nil => rfl
  | cons c ct =>
    simp only [fixedHexAt.eq_def]
    rw [if_neg]
    intro hcond
    simp only [Bool.and_eq_true, beq_iff_eq] at hcond
    obtain ⟨⟨⟨_, hb⟩, _⟩, _⟩ := hcond
    rw [List.length_take] at hb
    omega

/-! ### The single positive match of a 32-character hexadecimal text -/

lemma isHexC_isWordC (c : Char) (h : isHexC c = true) : isWordC c = true := by
  simp only [isWordC, isAlnumC, isLetterC, isLowerC, isUpperC, isDigitC,
    Bool.or_eq_true, Bool.and_eq_true, decide_eq_true_eq]
  rcases hex_cases c h with ⟨h1, h2⟩ | ⟨h1, h2⟩ | ⟨h1, h2⟩
  · exact Or.inl (Or.inr ⟨h1, h2⟩)
  · exact Or.inl (Or.inl (Or.inl ⟨h1, le_trans h2 (by decide)⟩))
  · exact Or.inl (Or.inl (Or.inr ⟨h1, le_trans h2 (by decide)⟩))

lemma fixedHexAt_full (s : List Char) (hlen : s.length = 32)
    (h : ∀ c ∈ s, isHexC c = true) : fixedHexAt 32 none s = some 32 := by
  cases s with
  | nil => simp at hlen
  | cons c ct =>
    simp only [fixedHexAt.eq_def]
    rw [if_pos]
    simp only [Bool.and_eq_true]
    refine ⟨⟨⟨?_, ?_⟩, ?_⟩, ?_⟩
    · rw [wb]
      simp [isWordOpt, isHexC_isWordC c (h c (List.mem_cons_self c ct))]
    · have h31 : ct.length = 31 := by simpa using hlen
      simp [List.length_take, h31]
    · rw [List.all_eq_true]
      intro x hx
      exact h x (List.mem_of_mem_take hx)
    · have hg : (c :: ct).get? 32 = none := by
        rw [List.get?_eq_none]
        exact hlen.le
      rw [hg]
      rfl

lemma scanFrom_nil_cs (m : Option Char → List Char → Option Nat)
    (fuel : Nat) (prev : Option Char) : scanFrom m fuel prev [] = [] := by
  cases fuel with
  | zero => rfl
  | succ n => rfl

lemma scanFrom_cons_some (m : Option Char → List Char → Option Nat)
    (fuel : Nat) (prev : Option Char) (c : Char) (cs : List Char) (n : Nat)
    (hm : m prev (c :: cs) = some n) :
    scanFrom m (fuel + 1) prev (c :: cs)
      = (c :: cs).take (natMax n 1) ::
          scanFrom m fuel ((c :: cs).get? (natMax n 1 - 1))
            ((c :: cs).drop (natMax n 1)) := by
  rw [scanFrom, hm]

lemma scanAll_md5_single (s : List Char) (hlen : s.length = 32)
    (h : ∀ c ∈ s, isHexC c = true) : scanAll (fixedHexAt 32) s = [s] := by
  rw [scanAll, hlen]
  cases s with
  | nil => simp at hlen
  | cons c ct =>
    nth_rewrite 2 [show (32 : Nat) = 31 + 1 from rfl]
    rw [scanFrom_cons_some (fixedHexAt 32) 31 none c ct 32
      (fixedHexAt_full (c :: ct) hlen h)]
    rw [show natMax 32 1 = 32 from rfl]
    rw [← hlen, List.take_length, List.drop_length, scanFrom_nil_cs]

/-! ### `extractIOCs` on bare hexadecimal strings -/

lemma scanAll_nil_hex (m : Option Char → List Char → Option Nat)
    (H : ∀ prev cs, (∀ c ∈ cs, isHexC c = true) → m prev cs = none)
    (s : List Char) (h : ∀ c ∈ s, isHexC c = true) : scanAll m s = [] :=
  scanFrom_nil_of_none m isHexC H s.length none s h

lemma scanAll_nil_short (m : Option Char → List Char → Option Nat) (N : Nat)
    (H : ∀ prev cs, cs.length ≤ N → m prev cs = none)
    (s : List Char) (h : s.length ≤ N) : scanAll m s = [] :=
  scanFrom_nil_of_short m N H s.length none s h

namespace IOCExtractor

lemma extractPattern_nil (text : List Char)
    (m : Option Char → List Char → Option Nat) (t : IOCType)
    (h : scanAll m text = []) : extractPattern text m t = [] := by
  rw [extractPattern, h]
  rfl

lemma extractPattern_self (s : List Char)
    (m : Option Char → List Char → Option Nat) (t : IOCType)
    (hscan : scanAll m s = [s]) (hws : ∀ c ∈ s, isWsC c = false) :
    extractPattern s m t = [⟨t, s, s, calculateConfidence s t s⟩] := by
  rw [extractPattern, hscan, List.map_cons, List.map_nil]
  have htrim : trimL s = s := trimL_eq_self s hws
  simp only [idxOf_self, Option.getD_some, Nat.zero_sub, Nat.sub_zero,
    Nat.zero_add, List.drop_zero]
  rw [show natMin s.length (s.length + 50) = s.length by
    rw [natMin, if_pos (Nat.le_add_right _ _)]]
  rw [List.take_length, htrim]

lemma rawIOCs_hex_le31 (s : List Char) (hlen : s.length ≤ 31)
    (h : ∀ c ∈ s, isHexC c = true) : rawIOCs s = [] := by
  have hstrip : stripAll urlAt s = s :=
    stripFrom_id_of_none urlAt isHexC urlAt_none_of_hex s.length none s h
  rw [rawIOCs, hstrip]
  rw [extractPattern_nil _ _ _ (scanAll_nil_hex ipv4At ipv4At_none_of_hex s h),
    extractPattern_nil _ _ _ (scanAll_nil_hex ipv6At ipv6At_none_of_hex s h),
    extractPattern_nil _ _ _ (scanAll_nil_hex urlAt urlAt_none_of_hex s h),
    extractPattern_nil _ _ _ (scanAll_nil_hex domainAt domainAt_none_of_hex s h),
    extractPattern_nil _ _ _ (scanAll_nil_short (fixedHexAt 32) 31
      (fun p cs hc => fixedHexAt_none_of_short 32 p cs (by omega)) s hlen),
    extractPattern_nil _ _ _ (scanAll_nil_short (fixedHexAt 40) 31
      (fun p cs hc => fixedHexAt_none_of_short 40 p cs (by omega)) s hlen),
    extractPattern_nil _ _ _ (scanAll_nil_short (fixedHexAt 64) 31
      (fun p cs hc => fixedHexAt_none_of_short 64 p cs (by omega)) s hlen),
    extractPattern_nil _ _ _ (scanAll_nil_short (fixedHexAt 128) 31
      (fun p cs hc => fixedHexAt_none_of_short 128 p cs (by omega)) s hlen),
    extractPattern_nil _ _ _ (scanAll_nil_hex emailAt emailAt_none_of_hex s h),
    extractPattern_nil _ _ _ (scanAll_nil_hex cveAt cveAt_none_of_hex s h),
    extractPattern_nil _ _ _ (scanAll_nil_hex ghsaAt ghsaAt_none_of_hex s h),
    extractPattern_nil _ _ _ (scanAll_nil_hex mitreAt mitreAt_none_of_hex s h)]
  rfl

lemma rawIOCs_hex32 (s : List Char) (hlen : s.length = 32)
    (h : ∀ c ∈ s, isHexC c = true) :
    rawIOCs s = [⟨.hash, s, s, calculateConfidence s .hash s⟩] := by
  have hstrip : stripAll urlAt s = s :=
    stripFrom_id_of_none urlAt isHexC urlAt_none_of_hex s.length none s h
  have hws : ∀ c ∈ s, isWsC c = false := fun c hc => isWsC_hex_false c (h c hc)
  rw [rawIOCs, hstrip]
  rw [extractPattern_nil _ _ _ (scanAll_nil_hex ipv4At ipv4At_none_of_hex s h),
    extractPattern_nil _ _ _ (scanAll_nil_hex ipv6At ipv6At_none_of_hex s h),
    extractPattern_nil _ _ _ (scanAll_nil_hex urlAt urlAt_none_of_hex s h),
    extractPattern_nil _ _ _ (scanAll_nil_hex domainAt domainAt_none_of_hex s h),
    extractPattern_self s (fixedHexAt 32) .hash (scanAll_md5_single s hlen h) hws,
    extractPattern_nil _ _ _ (scanAll_nil_short (fixedHexAt 40) 32
      (fun p cs hc => fixedHexAt_none_of_short 40 p cs (by omega)) s hlen.le),
    extractPattern_nil _ _ _ (scanAll_nil_short (fixedHexAt 64) 32
      (fun p cs hc => fixedHexAt_none_of_short 64 p cs (by omega)) s hlen.le),
    extractPattern_nil _ _ _ (scanAll_nil_short (fixedHexAt 128) 32
      (fun p cs hc => fixedHexAt_none_of_short 128 p cs (by omega)) s hlen.le),
    extractPattern_nil _ _ _ (scanAll_nil_hex emailAt emailAt_none_of_hex s h),
    extractPattern_nil _ _ _ (scanAll_nil_hex cveAt cveAt_none_of_hex s h),
    extractPattern_nil _ _ _ (scanAll_nil_hex ghsaAt ghsaAt_none_of_hex s h),
    extractPattern_nil _ _ _ (scanAll_nil_hex mitreAt mitreAt_none_of_hex s h)]
  rfl

lemma extractIOCs_hex_le31 (s : List Char) (hlen : s.length ≤ 31)
    (h : ∀ c ∈ s, isHexC c = true) : (extractIOCs s).iocs = [] := by
  simp only [extractIOCs, rawIOCs_hex_le31 s hlen h]
  rfl

lemma extractIOCs_hex32 (s : List Char) (hlen : s.length = 32)
    (h : ∀ c ∈ s, isHexC c = true) :
    (extractIOCs s).iocs = [⟨.hash, s, s, calculateConfidence s .hash s⟩] := by
  simp only [extractIOCs, rawIOCs_hex32 s hlen h]
  rw [filterAndDedupeIOCs, dedupeFold]
  have hinc : shouldIncludeIOC ⟨.hash, s, s, calculateConfidence s .hash s⟩
      = true := by
    simp only [shouldIncludeIOC]
    simp [hlen]
  rw [if_neg (by simp), if_pos hinc]
  rfl

lemma keywordHits_hex_le_one (s : List Char)
    (h : ∀ c ∈ s, isHexC c = true) : keywordHits s ≤ 1 := by
  have hbad : ∀ w : Char,
      (w.toNat < 48 ∨ (57 < w.toNat ∧ w.toNat < 97) ∨ 102 < w.toNat) →
        w ∉ lowerL s := by
    intro w hw hmem
    obtain ⟨c, hc, hlc⟩ := mem_lowerL w s hmem
    exact lowerC_hex_ne c w (h c hc) hw hlc
  have hexcl : ∀ kw ∈ threatKeywords, kw ≠ "c2".toList →
      includesL kw (lowerL s) = false := by
    intro kw hkw hne
    simp only [threatKeywords, List.mem_cons, List.not_mem_nil, or_false] at hkw
    rcases hkw with rfl | rfl | rfl | rfl | rfl | rfl | rfl | rfl | rfl | rfl
      | rfl | rfl | rfl | rfl | rfl | rfl | rfl
    · exact includesL_false_of_badchar _ _ 'm' (by decide) (hbad 'm' (by decide))
    · exact includesL_false_of_badchar _ _ 't' (by decide) (hbad 't' (by decide))
    · exact includesL_false_of_badchar _ _ 'w' (by decide) (hbad 'w' (by decide))
    · exact includesL_false_of_badchar _ _ 'u' (by decide) (hbad 'u' (by decide))
    · exact includesL_false_of_badchar _ _ 't' (by decide) (hbad 't' (by decide))
    · exact includesL_false_of_badchar _ _ 'o' (by decide) (hbad 'o' (by decide))
    · exact includesL_false_of_badchar _ _ 'p' (by decide) (hbad 'p' (by decide))
    · exact includesL_false_of_badchar _ _ 'r' (by decide) (hbad 'r' (by decide))
    · exact includesL_false_of_badchar _ _ 't' (by decide) (hbad 't' (by decide))
    · exact includesL_false_of_badchar _ _ 'k' (by decide) (hbad 'k' (by decide))
    · exact absurd rfl hne
    · exact includesL_false_of_badchar _ _ 'o' (by decide) (hbad 'o' (by decide))
    · exact includesL_false_of_badchar _ _ 'o' (by decide) (hbad 'o' (by decide))
    · exact includesL_false_of_badchar _ _ 'o' (by decide) (hbad 'o' (by decide))
    · exact includesL_false_of_badchar _ _ 'x' (by decide) (hbad 'x' (by decide))
    · exact includesL_false_of_badchar _ _ 'v' (by decide) (hbad 'v' (by decide))
    · exact includesL_false_of_badchar _ _ 'r' (by decide) (hbad 'r' (by decide))
  rw [keywordHits, ← List.countP_eq_length_filter]
  have hmono : threatKeywords.countP (fun kw => includesL kw (lowerL s))
      ≤ threatKeywords.countP (fun kw => kw == "c2".toList) := by
    apply List.countP_mono_left
    intro kw hkw hp
    by_cases hne : kw = "c2".toList
    · simp [hne]
    · rw [hexcl kw hkw hne] at hp
      exact absurd hp (by simp)
  exact le_trans hmono (by decide)

lemma hash_conf_bounds (s : List Char) (h : ∀ c ∈ s, isHexC c = true) :
    9/10 ≤ calculateConfidence s .hash s ∧
      calculateConfidence s .hash s ≤ 1 := by
  have hk0 : (0 : ℚ) ≤ (keywordHits s : ℚ) := Nat.cast_nonneg _
  have hk1 : (keywordHits s : ℚ) ≤ 1 := by
    exact_mod_cast keywordHits_hex_le_one s h
  show 9/10 ≤ ratMin 1 (ratMax (1/10)
      (7/10 + (keywordHits s : ℚ) * (1/10) + 2/10)) ∧
    ratMin 1 (ratMax (1/10) (7/10 + (keywordHits s : ℚ) * (1/10) + 2/10)) ≤ 1
  rw [ratMin_eq_min, ratMax_eq_max]
  constructor
  · apply le_min (by norm_num)
    apply le_trans ?_ (le_max_right _ _)
    linarith
  · exact min_le_left _ _

end IOCExtractor

/-! ### Lemmas for the claim theorems -/

namespace ThreatCampaignDetector

/-- Every member of a cluster returned by `assignReport` was in one of the
input clusters or is the newly assigned report. -/
lemma assignReport_mem (r : ThreatReport) (kws : List (List Char)) :
    ∀ (clusters cs : List (List ThreatReport)),
      assignReport r kws clusters = some cs →
      ∀ cl ∈ cs, ∀ x ∈ cl, (∃ cl0 ∈ clusters, x ∈ cl0) ∨ x = r := by
  intro clusters
  induction clusters with
  | nil => intro cs h; simp [assignReport] at h
  | cons cl0 rest ih =>
    intro cs h cl hcl x hx
    rw [assignReport] at h
    split at h
    · injection h with h
      subst h
      rcases List.mem_cons.mp hcl with rfl | hcl2
      · rcases List.mem_append.mp hx with hx0 | hxr
        · exact Or.inl ⟨cl0, List.mem_cons_self _ _, hx0⟩
        · exact Or.inr (List.mem_singleton.mp hxr)
      · exact Or.inl ⟨cl, List.mem_cons_of_mem _ hcl2, hx⟩
    · rcases Option.map_eq_some'.mp h with ⟨cs0, hcs0, rfl⟩
      rcases List.mem_cons.mp hcl with rfl | hcl2
      · exact Or.inl ⟨cl, List.mem_cons_self _ _, hx⟩
      · rcases ih cs0 hcs0 cl hcl2 x hx with ⟨cl1, hcl1, hx1⟩ | hr
        · exact Or.inl ⟨cl1, List.mem_cons_of_mem _ hcl1, hx1⟩
        · exact Or.inr hr

/-- Every member of every cluster built by `buildClusters` is one of the
input reports. -/
lemma buildClusters_mem (reports : List ThreatReport) :
    ∀ cl ∈ buildClusters reports, ∀ x ∈ cl, x ∈ reports := by
  suffices h : ∀ (rs : List ThreatReport) (acc : List (List ThreatReport))
      (S : ThreatReport → Prop),
      (∀ cl ∈ acc, ∀ x ∈ cl, S x) → (∀ r ∈ rs, S r) →
      ∀ cl ∈ rs.foldl (fun clusters r =>
          match assignReport r (extractKeywords r) clusters with
          | some cs => cs
          | none => clusters ++ [[r]]) acc, ∀ x ∈ cl, S x by
    intro cl hcl x hx
    exact h reports [] (· ∈ reports) (by simp) (fun r hr => hr) cl hcl x hx
  intro rs
  induction rs with
  | nil => intro acc S hacc _ cl hcl x hx; exact hacc cl hcl x hx
  | cons r rest ih =>
    intro acc S hacc hrs cl hcl x hx
    rw [List.foldl_cons] at hcl
    refine ih _ S ?_ (fun p hp => hrs p (List.mem_cons_of_mem _ hp)) cl hcl x hx
    intro cl2 hcl2 y hy
    cases hassign : assignReport r (extractKeywords r) acc with
    | some cs =>
      simp only [hassign] at hcl2
      rcases assignReport_mem r (extractKeywords r) acc cs hassign cl2 hcl2 y hy
        with ⟨cl0, h0, hy0⟩ | rfl
      · exact hacc cl0 h0 y hy0
      · exact hrs y (List.mem_cons_self _ _)
    | none =>
      simp only [hassign] at hcl2
      rcases List.mem_append.mp hcl2 with h0 | h1
      · exact hacc cl2 h0 y hy
      · rw [List.mem_singleton.mp h1] at hy
        rw [List.mem_singleton.mp hy]
        exact hrs r (List.mem_cons_self _ _)

/-- The amended confidence of a cluster with at least two members lies in
`[11, 100]`: the report-count factor is at least 1, the other factors are
non-negative, and the result is capped at 100. -/
lemma amendedConfidence_bounds (now : ℤ) (rs : List ThreatReport)
    (h2 : 2 ≤ rs.length) :
    11 ≤ amendedConfidence now rs ∧ amendedConfidence now rs ≤ 100 := by
  have ha : (1:ℚ) ≤ ratMin ((rs.length : ℚ) / 2) 5 := by
    rw [ratMin_eq_min]
    apply le_min
    · have hn : (2:ℚ) ≤ (rs.length : ℚ) := by exact_mod_cast h2
      linarith
    · norm_num
  have hb0 : (0:ℚ) ≤ ratMax 0 (1 - avgAgeMs now rs / (30*24*60*60*1000)) := by
    rw [ratMax_eq_max]
    exact le_max_left _ _
  have hc0 : (0:ℚ) ≤ ratMin ((amendedSharedCount rs : ℚ) / 5) 3 := by
    rw [ratMin_eq_min]
    apply le_min
    · positivity
    · norm_num
  constructor
  · rw [amendedConfidence, intMin_eq_min]
    apply le_min (by norm_num)
    rw [jsRound]
    apply Rat.le_floor.mpr
    push_cast
    linarith
  · rw [amendedConfidence, intMin_eq_min]
    exact min_le_left _ _

end ThreatCampaignDetector

namespace DataStorage

/-- When an existing entry differs from the incoming IOC in exact `(type,
value)`, the upsert step leaves it in place and recurses. -/
lemma upsertIOC_cons_ne (n i : StoredIOC) (rest : List StoredIOC)
    (h : (i.type == n.type && i.value == n.value) = false) :
    upsertIOC n (i :: rest) = i :: upsertIOC n rest := by
  rw [upsertIOC]
  simp only [h, Bool.false_eq_true, if_false]

end DataStorage


set_option maxHeartbeats 2000000

/-! ## The claim theorems -/

/-- C1, counterexample: on `dupText` the raw pass yields two instances of
the key `(domain, "zza-one.com")`, the first with confidence 0.7 and the
second with confidence 0.9, yet the deduplicated output keeps the
first-seen, *lower*-confidence instance (value `ZZA-ONE.com`, 0.7), not
the higher-confidence one, refuting "keeps only the higher-confidence
instance of that pair". -/
theorem c1_dedupe_keeps_first_counterexample :
    (IOCExtractor.rawIOCs Examples.dupText).map
        (fun i => (IOCExtractor.keyOf i, i.confidence))
      = [((.domain, "zza-one.com".toList), 7/10),
         ((.domain, "zza-one.com".toList), 9/10)] ∧
    (IOCExtractor.extractIOCs Examples.dupText).iocs.map
        (fun i => (i.value, i.confidence))
      = [("ZZA-ONE.com".toList, 7/10)] := by
  with_unfolding_all decide

/-- C1, amended: within one extraction call, per `(type, lowercased
value)` key the *first* instance passing the inclusion filter is kept and
all later instances of that key are dropped regardless of confidence
(`dedupeSpec`), the result sorted by confidence descending; and the
Indicator Store half as claimed: re-adding an IOC whose exact `(type,
value)` already exists with greater-or-equal confidence leaves the store
unchanged (given the 10000-entry cap is not in play). -/
theorem c1_dedupe_and_store_amended :
    (∀ raw : List ExtractedIOC,
      IOCExtractor.filterAndDedupeIOCs raw =
        stableSortBy (fun a b => b.confidence < a.confidence)
          (IOCExtractor.dedupeSpec raw)) ∧
    (∀ (ex : List DataStorage.StoredIOC) (n : ExtractedIOC)
        (src : List Char) (now : ℤ) (j : DataStorage.StoredIOC),
      ex.find? (fun i => i.type == n.type && i.value == n.value) = some j →
      n.confidence ≤ j.confidence → ex.length ≤ 10000 →
      DataStorage.addIOCs ex [n] src now = ex) := by
  refine ⟨IOCExtractor.filterAndDedupe_eq_spec, ?_⟩
  intro ex n src now j hf hc hlen
  rw [DataStorage.addIOCs]
  have hm : DataStorage.upsertIOC (DataStorage.stampIOC src now n) ex = ex := by
    apply DataStorage.upsertIOC_no_change ex _ j
    · exact hf
    · exact hc
  simp only [List.map_cons, List.map_nil, List.foldl_cons, List.foldl_nil]
  rw [hm]
  rw [if_neg (by omega)]

/-- C1, witness for the amended theorem: a lower-confidence duplicate
(0.6) of a stored 0.9 domain indicator leaves the store unchanged. -/
theorem c1_dedupe_and_store_amended_witness :
    IOCExtractor.filterAndDedupeIOCs [Examples.iocHigh]
      = stableSortBy (fun a b => b.confidence < a.confidence)
          (IOCExtractor.dedupeSpec [Examples.iocHigh]) ∧
    DataStorage.addIOCs [Examples.storedHigh] [Examples.iocLow]
        "r1".toList 1 = [Examples.storedHigh] :=
  ⟨c1_dedupe_and_store_amended.1 [Examples.iocHigh],
   c1_dedupe_and_store_amended.2 [Examples.storedHigh] Examples.iocLow
     "r1".toList 1 Examples.storedHigh
     (by with_unfolding_all decide) (by with_unfolding_all decide)
     (by decide)⟩

/-- C2, counterexample: on the two-report cluster `ipReports` (shared
`conti` keyword, disjoint single ip indicators) the produced campaign's
confidence is 26, whereas the claimed formula — `sharedIndicatorCount`
counting values appearing in more than one member report, here 0 — gives
22: the code sums the per-type distinct-value union size whenever it
exceeds 1, even when no value is shared. -/
theorem c2_confidence_formula_counterexample :
    (ThreatCampaignDetector.detectCampaigns 0 Examples.ipReports).map
        (fun c => c.confidence) = [26] ∧
    ThreatCampaignDetector.claimConfidence 0 Examples.ipReports = 22 := by
  with_unfolding_all decide

/-- C2, amended: every produced campaign's confidence follows the claimed
`min`/`round` formula with `sharedIndicatorCount` read as: the sum, per
indicator type, of the number of distinct values across all member
reports, counted when that number is at least 2. -/
theorem c2_confidence_formula_amended (now : ℤ)
    (reports : List ThreatReport) (c : ThreatCampaignDetector.Campaign)
    (hc : c ∈ ThreatCampaignDetector.detectCampaigns now reports) :
    c.confidence = ThreatCampaignDetector.amendedConfidence now c.reports := by
  rcases ThreatCampaignDetector.mem_detectCampaigns now reports c hc
    with ⟨rs, hrs, hlen, rfl⟩
  exact ThreatCampaignDetector.calculateConfidence_eq_amended now rs hlen

/-- C2, witness: the campaign detected on `ipReports` satisfies the
amended formula. -/
theorem c2_confidence_formula_amended_witness :
    Examples.ipCampaign.confidence
      = ThreatCampaignDetector.amendedConfidence 0
          Examples.ipCampaign.reports :=
  c2_confidence_formula_amended 0 Examples.ipReports Examples.ipCampaign
    (by with_unfolding_all decide)

/-- C3, counterexample: a reentrant invocation does not return a result
object at all — `refreshThreatIntelligence` throws (the `Except.error`
branch) before entering its `try` block, refuting "every invocation ...
returns a result object ... rather than throwing". -/
theorem c3_pipeline_result_counterexample :
    Pipeline.refreshThreatIntelligence Examples.reentrantEnv 50 =
      .error "Pipeline is already processing. Please wait for current operation to complete.".toList :=
  rfl

/-- C3, amended: every *non-reentrant* invocation returns a result object
(a reentrant one throws): a throwing feed fetch yields `success = false`
with a single `Pipeline error:` entry; otherwise `success = true`,
`processed` counts the taken items whose extraction did not throw, and
`errors` collects one entry per extraction failure followed by one per
enrichment failure — per-report failures never flip `success`. -/
theorem c3_pipeline_result_amended (env : Pipeline.RunEnv) (maxItems : Nat)
    (h : env.alreadyProcessing = false) :
    (env.fetchThrows = true →
      Pipeline.refreshThreatIntelligence env maxItems =
        .ok ⟨false, 0, ["Pipeline error: ".toList ++ env.fetchErrorMsg]⟩) ∧
    (env.fetchThrows = false →
      Pipeline.refreshThreatIntelligence env maxItems =
        .ok ⟨true,
          (env.items.take (Pipeline.effectiveMaxItems maxItems)).countP
            (fun j => !j.extractThrows),
          ((env.items.take (Pipeline.effectiveMaxItems maxItems)).filter
              (fun j => j.extractThrows)).map
            (fun j => "IOC extraction failed for ".toList ++ j.title) ++
          Pipeline.enrichmentStep env.aiReady
            (env.items.take (Pipeline.effectiveMaxItems maxItems))⟩) := by
  constructor
  · intro hf
    rw [Pipeline.refreshThreatIntelligence, if_neg (by simp [h]),
      if_pos hf]
  · intro hf
    rw [Pipeline.refreshThreatIntelligence, if_neg (by simp [h]),
      if_neg (by simp [hf])]
    simp only [Pipeline.extractionStep_eq]

/-- C3, witness: a normal run over three items — the first failing
extraction, the second failing enrichment — returns success with 2
processed items and both error messages. -/
theorem c3_pipeline_result_amended_witness :
    Pipeline.refreshThreatIntelligence Examples.normalEnv 50 =
      .ok ⟨true, 2, ["IOC extraction failed for t1".toList,
                     "AI summary failed for t2".toList]⟩ := by
  have h := (c3_pipeline_result_amended Examples.normalEnv 50 rfl).2 rfl
  rw [h]
  rfl

/-- C4, counterexample: in `glueText` the substring `evil.com` occurs only
at index 14, inside the sole URL match `https://evil.com:99` (indices 6
to 24), yet the output contains a separate `domain` indicator
`evil.com`: removing the URL splices `evil.c` and `om` back together,
refuting the universal "does not appear as a separate domain indicator". -/
theorem c4_domain_url_overlap_counterexample :
    substrPositions "evil.com".toList Examples.glueText = [14] ∧
    scanAll urlAt Examples.glueText = ["https://evil.com:99".toList] ∧
    substrPositions "https://evil.com:99".toList Examples.glueText = [6] ∧
    (6 ≤ 14 ∧ 14 + ("evil.com".toList).length
      ≤ 6 + ("https://evil.com:99".toList).length) ∧
    (IOCExtractor.extractIOCs Examples.glueText).iocs.countP
      (fun i => i.type == .domain && i.value == "evil.com".toList) = 1 := by
  with_unfolding_all decide

/-- C4, amended: domain extraction does run on a copy of the text with the
URL matches removed, but the removal concatenates the surrounding text,
which can itself recreate a domain; the spec's concrete example holds:
`"visit https://evil.com/path for details"` yields the URL indicator and
no `domain` indicator at all. -/
theorem c4_domain_url_nonoverlap_amended :
    (IOCExtractor.extractIOCs Examples.urlExampleText).iocs.countP
      (fun i => i.type == .domain) = 0 ∧
    (IOCExtractor.extractIOCs Examples.urlExampleText).iocs.countP
      (fun i => i.type == .url &&
        i.value == "https://evil.com/path".toList) = 1 := by
  with_unfolding_all decide

/-- C5: a word-bounded text of exactly 31 hexadecimal characters yields no
indicator at all, while one of exactly 32 hexadecimal characters yields a
single hash indicator whose confidence lies in `[0.9, 1]` (base 0.7 plus
the 0.2 hash bonus, then clamped to at most 1). -/
theorem c5_hash_length_boundary (s : List Char)
    (h : ∀ c ∈ s, isHexC c = true) :
    (s.length = 31 → (IOCExtractor.extractIOCs s).iocs = []) ∧
    (s.length = 32 → ∃ q : ℚ,
      (IOCExtractor.extractIOCs s).iocs = [⟨IOCType.hash, s, s, q⟩] ∧
        9/10 ≤ q ∧ q ≤ 1) := by
  constructor
  · intro h31
    exact IOCExtractor.extractIOCs_hex_le31 s (by omega) h
  · intro h32
    exact ⟨IOCExtractor.calculateConfidence s .hash s,
      IOCExtractor.extractIOCs_hex32 s h32 h,
      (IOCExtractor.hash_conf_bounds s h).1,
      (IOCExtractor.hash_conf_bounds s h).2⟩

/-- C5, witness: the boundary at the concrete 31- and 32-character
hexadecimal strings `hex31` and `hex32`. -/
theorem c5_hash_length_boundary_witness :
    (IOCExtractor.extractIOCs Examples.hex31).iocs = [] ∧
    ∃ q : ℚ, (IOCExtractor.extractIOCs Examples.hex32).iocs
        = [⟨IOCType.hash, Examples.hex32, Examples.hex32, q⟩] ∧
      9/10 ≤ q ∧ q ≤ 1 :=
  ⟨(c5_hash_length_boundary Examples.hex31 (by decide)).1 (by decide),
   (c5_hash_length_boundary Examples.hex32 (by decide)).2 (by decide)⟩

/-- C6: every produced campaign's severity is the maximum of its member
reports' severities under low < medium < high < critical: no member
exceeds it and some member attains it. -/
theorem c6_severity_is_max (now : ℤ) (reports : List ThreatReport)
    (c : ThreatCampaignDetector.Campaign)
    (hc : c ∈ ThreatCampaignDetector.detectCampaigns now reports) :
    (∀ r ∈ c.reports,
      severityLevel r.severity ≤ severityLevel c.severity) ∧
    ∃ r ∈ c.reports, r.severity = c.severity := by
  rcases ThreatCampaignDetector.mem_detectCampaigns now reports c hc
    with ⟨rs, hrs, hlen, rfl⟩
  have hne : rs ≠ [] := by
    intro h
    rw [h] at hlen
    simp at hlen
  exact ThreatCampaignDetector.highestSeverity_is_max rs hne

/-- C6, witness: the campaign clustered from members of severities
{low, critical, medium} has severity critical, attained and not
exceeded. -/
theorem c6_severity_is_max_witness :
    Examples.sevCampaign.severity = Severity.critical ∧
    ((∀ r ∈ Examples.sevCampaign.reports,
        severityLevel r.severity
          ≤ severityLevel Examples.sevCampaign.severity) ∧
      ∃ r ∈ Examples.sevCampaign.reports,
        r.severity = Examples.sevCampaign.severity) :=
  ⟨by with_unfolding_all decide,
   c6_severity_is_max 0 Examples.sevReports Examples.sevCampaign
     (by with_unfolding_all decide)⟩

/-- C7: every produced campaign has at least two member reports, and a
correlation pass over a single report produces zero campaigns. -/
theorem c7_campaign_min_size :
    (∀ (now : ℤ) (reports : List ThreatReport)
        (c : ThreatCampaignDetector.Campaign),
      c ∈ ThreatCampaignDetector.detectCampaigns now reports →
        2 ≤ c.reports.length) ∧
    (∀ (now : ℤ) (r : ThreatReport),
      ThreatCampaignDetector.detectCampaigns now [r] = []) := by
  constructor
  · intro now reports c hc
    rcases ThreatCampaignDetector.mem_detectCampaigns now reports c hc
      with ⟨rs, _, hlen, rfl⟩
    exact hlen
  · intro now r
    rfl

/-- C7, witness: the campaign detected on `ipReports` has two members, and
the pass over the single report `repLow` yields no campaign. -/
theorem c7_campaign_min_size_witness :
    2 ≤ Examples.ipCampaign.reports.length ∧
    ThreatCampaignDetector.detectCampaigns 0 [Examples.repLow] = [] :=
  ⟨c7_campaign_min_size.1 0 Examples.ipReports Examples.ipCampaign
     (by with_unfolding_all decide),
   c7_campaign_min_size.2 0 Examples.repLow⟩

/-- C8: for every input text the extraction result is internally
consistent: `summary.totalFound` is the length of the returned list,
`summary.byType` counts the returned IOCs of each type, and the per-type
counts sum to `totalFound`. -/
theorem c8_summary_consistency (text : List Char) :
    (IOCExtractor.extractIOCs text).summary.totalFound
      = (IOCExtractor.extractIOCs text).iocs.length ∧
    (∀ t : IOCType, (IOCExtractor.extractIOCs text).summary.byType t
      = (IOCExtractor.extractIOCs text).iocs.countP
          (fun i => i.type == t)) ∧
    (IOCExtractor.allTypes.map
        (fun t => (IOCExtractor.extractIOCs text).summary.byType t)).sum
      = (IOCExtractor.extractIOCs text).summary.totalFound := by
  refine ⟨rfl, fun t => IOCExtractor.byTypeFold_apply _ t, ?_⟩
  calc (IOCExtractor.allTypes.map
          (fun t => (IOCExtractor.extractIOCs text).summary.byType t)).sum
      = (IOCExtractor.allTypes.map (fun t =>
          (IOCExtractor.filterAndDedupeIOCs
            (IOCExtractor.rawIOCs text)).countP
              (fun i => i.type == t))).sum :=
        congrArg List.sum (List.map_congr_left
          (fun t _ => IOCExtractor.byTypeFold_apply _ t))
    _ = (IOCExtractor.filterAndDedupeIOCs
          (IOCExtractor.rawIOCs text)).length :=
        IOCExtractor.sum_countP_types _
    _ = (IOCExtractor.extractIOCs text).summary.totalFound := rfl

/-- C9: the Indicator Store deduplicates by exact, case-sensitive `(type,
value)` equality — two IOCs whose values differ only in letter case are
stored as two distinct entries — even though the extractor's in-pass
deduplication collapses the same pair to its first instance by lowercased
value. -/
theorem c9_store_case_sensitive (i1 i2 : ExtractedIOC) (src : List Char)
    (now : ℤ) (hty : i1.type = i2.type) (hne : i1.value ≠ i2.value)
    (hlc : lowerL i1.value = lowerL i2.value)
    (hinc : IOCExtractor.shouldIncludeIOC i1 = true) :
    DataStorage.addIOCs [] [i1, i2] src now
      = [DataStorage.stampIOC src now i1,
         DataStorage.stampIOC src now i2] ∧
    IOCExtractor.filterAndDedupeIOCs [i1, i2] = [i1] := by
  constructor
  · rw [DataStorage.addIOCs]
    simp only [List.map_cons, List.map_nil, List.foldl_cons, List.foldl_nil]
    have hpred : ((DataStorage.stampIOC src now i1).type
          == (DataStorage.stampIOC src now i2).type &&
        (DataStorage.stampIOC src now i1).value
          == (DataStorage.stampIOC src now i2).value) = false := by
      have hv : (i1.value == i2.value) = false :=
        beq_eq_false_iff_ne.mpr hne
      show (i1.type == i2.type && i1.value == i2.value) = false
      rw [hv, Bool.and_false]
    rw [show DataStorage.upsertIOC (DataStorage.stampIOC src now i1) []
        = [DataStorage.stampIOC src now i1] from rfl]
    rw [DataStorage.upsertIOC_cons_ne _ _ _ hpred]
    rw [show DataStorage.upsertIOC (DataStorage.stampIOC src now i2) []
        = [DataStorage.stampIOC src now i2] from rfl]
    rw [if_neg (by simp)]
  · have hkey : IOCExtractor.keyOf i2 = IOCExtractor.keyOf i1 := by
      rw [IOCExtractor.keyOf, IOCExtractor.keyOf, hty, hlc]
    rw [IOCExtractor.filterAndDedupeIOCs, IOCExtractor.dedupeFold]
    rw [if_neg (by simp), if_pos hinc]
    rw [IOCExtractor.dedupeFold]
    rw [if_pos (by simp [hkey])]
    rw [show IOCExtractor.dedupeFold
        [IOCExtractor.keyOf i1] [] = [] from rfl]
    rfl

/-- C9, witness: `evil-a.com` at 0.9 and its case-variant `EVIL-A.com` at
0.7 are stored as two entries, while the extractor keeps only the first. -/
theorem c9_store_case_sensitive_witness :
    DataStorage.addIOCs [] [Examples.iocHigh, Examples.iocUpper]
        "r0".toList 0
      = [DataStorage.stampIOC "r0".toList 0 Examples.iocHigh,
         DataStorage.stampIOC "r0".toList 0 Examples.iocUpper] ∧
    IOCExtractor.filterAndDedupeIOCs [Examples.iocHigh, Examples.iocUpper]
      = [Examples.iocHigh] :=
  c9_store_case_sensitive Examples.iocHigh Examples.iocUpper "r0".toList 0
    (by decide) (by decide) (by decide) (by decide)

/-- C10: every campaign produced from reports whose timestamps are not in
the future has an integer confidence between 11 and 100 inclusive. -/
theorem c10_confidence_range (now : ℤ) (reports : List ThreatReport)
    (c : ThreatCampaignDetector.Campaign)
    (hc : c ∈ ThreatCampaignDetector.detectCampaigns now reports)
    (h0 : ∀ r ∈ reports, r.timestamp ≤ now) :
    11 ≤ c.confidence ∧ c.confidence ≤ 100 := by
  rcases ThreatCampaignDetector.mem_detectCampaigns now reports c hc
    with ⟨rs, hrs, hlen, rfl⟩
  show 11 ≤ ThreatCampaignDetector.calculateConfidence now rs ∧
    ThreatCampaignDetector.calculateConfidence now rs ≤ 100
  rw [ThreatCampaignDetector.calculateConfidence_eq_amended now rs hlen]
  exact ThreatCampaignDetector.amendedConfidence_bounds now rs hlen

/-- C10, witness: the campaign detected on `ipReports` at time 0 has
confidence between 11 and 100 (it is 26). -/
theorem c10_confidence_range_witness :
    11 ≤ Examples.ipCampaign.confidence ∧
      Examples.ipCampaign.confidence ≤ 100 :=
  c10_confidence_range 0 Examples.ipReports Examples.ipCampaign
    (by with_unfolding_all decide) (by decide)


end Vireon
